import Mathlib

/-!
Verification of the vector-calculator core against its specification.

The development shallowly embeds the three core subsystems of the repository:

* the fixed-width vector codec and mixer (`src/mixer/math.ts`),
* the NOFS binary container and its JSON field-migration transforms
  (`src/nofs/binary.ts`),
* the configuration validator (`src/nofs/validate.ts`).

Modelling conventions:

* `Buffer`/`Uint8Array` values are `List Nat` of byte values; the 32-bit words
  stored in a `Float32Array` are modelled by their bit patterns (`Nat < 2^32`),
  since the codec is a literal byte reinterpretation and never does numeric
  arithmetic on the decoded floats.
* Exact JS number arithmetic is modelled over `ℚ` (mixer) and, where `sqrt`
  and IEEE signed zeros matter (`setMagnitude`), over a signed-real type `SR`
  pairing a real value with the IEEE sign bit used when the value is zero.
* Fallible operations (`throw` in the source) return `Option`/`Except`.
-/

set_option maxRecDepth 100000

/-! ### Hex and little-endian byte primitives

These model the byte-level helpers shared by `src/mixer/math.ts`
(`bytesToHex`, the `DataView` little-endian accesses) and
`src/nofs/binary.ts` (`floatToHexLE` / `hexToFloatLE`). -/

/-- Value of one hex digit, accepting both cases (the `[0-9a-fA-F]` character
class used by every hex regex in the source); `none` on a non-hex character. -/
def hexCharVal (c : Char) : Option Nat :=
  if '0' ≤ c ∧ c ≤ '9' then some (c.toNat - '0'.toNat)
  else if 'a' ≤ c ∧ c ≤ 'f' then some (c.toNat - 'a'.toNat + 10)
  else if 'A' ≤ c ∧ c ≤ 'F' then some (c.toNat - 'A'.toNat + 10)
  else none

/-- Upper-case hex digit for a value below 16. -/
def hexDigitChar (d : Nat) : Char :=
  [ '0', '1', '2', '3', '4', '5', '6', '7', '8', '9',
    'A', 'B', 'C', 'D', 'E', 'F' ].getD d '0'

/-- The two upper-case hex characters of one byte: the source renders each
byte with `toString(16).padStart(2, "0")` and upper-cases the result. -/
def byteToHexChars (b : Nat) : List Char :=
  [hexDigitChar (b / 16), hexDigitChar (b % 16)]

/-- Hex characters of a byte list, in order (the loop in `bytesToHex`). -/
def bytesToHexChars : List Nat → List Char
  | [] => []
  | b :: bs => byteToHexChars b ++ bytesToHexChars bs

/-- `bytesToHex` from `src/mixer/math.ts`: upper-case hex of a byte array. -/
def bytesToHex (bytes : List Nat) : String :=
  String.mk (bytesToHexChars bytes)

/-- Parse consecutive hex-character pairs into bytes (the
`Number.parseInt(hex.slice(o, o + 2), 16)` loop of `hexToVec32`); `none` on a
non-hex character or odd length, which the source regexes reject. -/
def hexPairsToBytes : List Char → Option (List Nat)
  | [] => some []
  | c1 :: c2 :: rest => do
      let hi ← hexCharVal c1
      let lo ← hexCharVal c2
      let bs ← hexPairsToBytes rest
      some ((hi * 16 + lo) :: bs)
  | [_] => none

/-- Little-endian bytes of one 32-bit word (`DataView.setFloat32(…, true)`
at the bit-pattern level). -/
def wordToBytesLE (w : Nat) : List Nat :=
  [w % 256, w / 256 % 256, w / 65536 % 256, w / 16777216 % 256]

/-- Little-endian byte serialisation of a word list (the `setFloat32(i * 4, …)`
loop of `vec32ToHex`). -/
def wordsToBytesLE : List Nat → List Nat
  | [] => []
  | w :: ws => wordToBytesLE w ++ wordsToBytesLE ws

/-- Group bytes four at a time into little-endian 32-bit words (the
`getFloat32(i * 4, true)` loop of `hexToVec32`). -/
def bytesToWordsLE : List Nat → Option (List Nat)
  | [] => some []
  | b0 :: b1 :: b2 :: b3 :: rest =>
      (bytesToWordsLE rest).map fun ws =>
        (b0 + 256 * b1 + 65536 * b2 + 16777216 * b3) :: ws
  | _ => none

/-! ### VectorCodec (`src/mixer/math.ts`)

`Float32Array` elements are modelled by their 32-bit patterns; the codec is a
literal byte reinterpretation (see §4.1 of the spec), so encoding and decoding
never interpret the patterns numerically. -/

/-- `vec32ToHex`: fails unless given exactly 32 values, then emits the 256
upper-case hex characters of the 128 little-endian bytes. -/
def vec32ToHex (vec : List Nat) : Option String :=
  if vec.length = 32 then some (bytesToHex (wordsToBytesLE vec)) else none

/-- `hexToVec32`: fails unless given exactly 256 hex characters
(`HEX_RE_256`), then decodes 128 bytes into 32 little-endian words. -/
def hexToVec32 (hex : String) : Option (List Nat) :=
  if hex.data.length = 256 then (hexPairsToBytes hex.data).bind bytesToWordsLE
  else none

theorem hexCharVal_hexDigitChar : ∀ d < 16, hexCharVal (hexDigitChar d) = some d := by
  decide

theorem mem_wordToBytesLE_lt {b w : Nat} (h : b ∈ wordToBytesLE w) : b < 256 := by
  simp [wordToBytesLE] at h
  rcases h with h | h | h | h <;> omega

theorem mem_wordsToBytesLE_lt {b : Nat} :
    ∀ {ws : List Nat}, b ∈ wordsToBytesLE ws → b < 256 := by
  intro ws
  induction ws with
  | nil => intro h; simp [wordsToBytesLE] at h
  | cons w ws ih =>
      intro h
      rw [wordsToBytesLE, List.mem_append] at h
      rcases h with h | h
      · exact mem_wordToBytesLE_lt h
      · exact ih h

theorem hexPairsToBytes_bytesToHexChars :
    ∀ (bs : List Nat), (∀ b ∈ bs, b < 256) →
      hexPairsToBytes (bytesToHexChars bs) = some bs := by
  intro bs
  induction bs with
  | nil => intro _; rfl
  | cons b bs ih =>
      intro h
      have hb : b < 256 := h b (by simp)
      have h1 : b / 16 < 16 := by omega
      have h2 : b % 16 < 16 := by omega
      rw [bytesToHexChars, byteToHexChars]
      show hexPairsToBytes
        (hexDigitChar (b / 16) :: hexDigitChar (b % 16) :: bytesToHexChars bs) = some (b :: bs)
      rw [hexPairsToBytes]
      rw [hexCharVal_hexDigitChar _ h1, hexCharVal_hexDigitChar _ h2,
        ih (fun x hx => h x (by simp [hx]))]
      simp
      omega

theorem bytesToWordsLE_wordsToBytesLE :
    ∀ (ws : List Nat), (∀ w ∈ ws, w < 4294967296) →
      bytesToWordsLE (wordsToBytesLE ws) = some ws := by
  intro ws
  induction ws with
  | nil => intro _; rfl
  | cons w ws ih =>
      intro h
      have hw : w < 4294967296 := h w (by simp)
      rw [wordsToBytesLE, wordToBytesLE]
      show bytesToWordsLE
        (w % 256 :: w / 256 % 256 :: w / 65536 % 256 :: w / 16777216 % 256 ::
          wordsToBytesLE ws) = some (w :: ws)
      rw [bytesToWordsLE, ih (fun x hx => h x (by simp [hx]))]
      simp
      omega

theorem length_bytesToHexChars :
    ∀ (bs : List Nat), (bytesToHexChars bs).length = 2 * bs.length := by
  intro bs
  induction bs with
  | nil => rfl
  | cons b bs ih =>
      rw [bytesToHexChars]
      simp [byteToHexChars, ih]
      omega

theorem length_wordsToBytesLE :
    ∀ (ws : List Nat), (wordsToBytesLE ws).length = 4 * ws.length := by
  intro ws
  induction ws with
  | nil => rfl
  | cons w ws ih =>
      rw [wordsToBytesLE]
      simp [wordToBytesLE, ih]
      omega

/-- C1: decoding the hex string produced by encoding a 32-element vector
returns the vector bit-exactly.  Vector elements are the 32-bit patterns
stored in the `Float32Array`, so the statement covers the sign of zero and
NaN payload bits: encoding is a byte reinterpretation of exactly those
patterns, never a numeric round trip. -/
theorem hexToVec32_vec32ToHex (v : List Nat) (h32 : v.length = 32)
    (hb : ∀ x ∈ v, x < 4294967296) :
    ∃ h, vec32ToHex v = some h ∧ hexToVec32 h = some v := by
  refine ⟨bytesToHex (wordsToBytesLE v), ?_, ?_⟩
  · simp [vec32ToHex, h32]
  · have hlen : (bytesToHexChars (wordsToBytesLE v)).length = 256 := by
      rw [length_bytesToHexChars, length_wordsToBytesLE, h32]
    have hbytes : ∀ b ∈ wordsToBytesLE v, b < 256 := fun b hbmem =>
      mem_wordsToBytesLE_lt hbmem
    rw [hexToVec32]
    simp only [bytesToHex]
    rw [if_pos hlen, hexPairsToBytes_bytesToHexChars _ hbytes]
    simpa using bytesToWordsLE_wordsToBytesLE v hb

/-- Witness for C1 at the all-zero bit pattern. -/
theorem hexToVec32_vec32ToHex_witness :
    (List.replicate 32 0).length = 32 ∧
      ∃ h, vec32ToHex (List.replicate 32 0) = some h ∧
        hexToVec32 h = some (List.replicate 32 0) :=
  ⟨by decide, hexToVec32_vec32ToHex (List.replicate 32 0) (by decide) (by decide)⟩

/-! ### Mixer: `mixVectors` (`src/mixer/math.ts`)

Exact JS number arithmetic is modelled over `ℚ`; vectors are lists of 32
components.  The single source loop accumulates the output components and
`sumAbs` together, modelled by `mixLoop` carrying both accumulators. -/

/-- The accumulation loop of `mixVectors`: for each weight, add `|w|` to
`sumAbs` and `v[j] * w` to every output component. -/
def mixLoop : List (List ℚ) → List ℚ → List ℚ → ℚ → List ℚ × ℚ
  | [], _, out, s => (out, s)
  | _, [], out, s => (out, s)
  | v :: vs, w :: ws, out, s =>
      mixLoop vs ws (List.zipWith (fun o x => o + x * w) out v) (s + |w|)

/-- `mixVectors`: fails when the sequences differ in length; if the sum of
absolute weights is zero returns the all-zero 32-vector with `sumAbs = 0`,
otherwise divides every accumulated component by `sumAbs`. -/
def mixVectors (vectors : List (List ℚ)) (weights : List ℚ) :
    Option (List ℚ × ℚ) :=
  if vectors.length ≠ weights.length then none
  else
    let acc := mixLoop vectors weights (List.replicate 32 0) 0
    if acc.2 = 0 then some (List.replicate 32 0, acc.2)
    else some (acc.1.map fun x => x / acc.2, acc.2)

theorem mixLoop_sum :
    ∀ (vs : List (List ℚ)) (ws : List ℚ) (out : List ℚ) (s : ℚ),
      vs.length = ws.length →
      (mixLoop vs ws out s).2 = s + ((ws.map fun w => |w|).sum) := by
  intro vs
  induction vs with
  | nil =>
      intro ws out s hlen
      cases ws with
      | nil => simp [mixLoop]
      | cons w ws => simp at hlen
  | cons v vs ih =>
      intro ws out s hlen
      cases ws with
      | nil => simp at hlen
      | cons w ws =>
          rw [mixLoop, ih ws _ _ (by simpa using hlen)]
          simp
          ring

theorem mixLoop_length :
    ∀ (vs : List (List ℚ)) (ws : List ℚ) (out : List ℚ) (s : ℚ),
      (∀ v ∈ vs, v.length = out.length) →
      (mixLoop vs ws out s).1.length = out.length := by
  intro vs
  induction vs with
  | nil => intro ws out s _; cases ws <;> rfl
  | cons v vs ih =>
      intro ws out s hv
      cases ws with
      | nil => rfl
      | cons w ws =>
          rw [mixLoop]
          have hlen : (List.zipWith (fun o x => o + x * w) out v).length = out.length := by
            rw [List.length_zipWith, hv v (by simp)]
            omega
          rw [ih ws _ _ ?_, hlen]
          intro u hu
          rw [hv u (by simp [hu]), hlen]

theorem mixLoop_component :
    ∀ (vs : List (List ℚ)) (ws : List ℚ) (out : List ℚ) (s : ℚ) (j : Nat),
      vs.length = ws.length →
      (∀ v ∈ vs, v.length = out.length) →
      j < out.length →
      (mixLoop vs ws out s).1.getD j 0 =
        out.getD j 0 + ((vs.zip ws).map fun p => p.2 * p.1.getD j 0).sum := by
  intro vs
  induction vs with
  | nil =>
      intro ws out s j hlen _ _
      cases ws with
      | nil => simp [mixLoop]
      | cons w ws => simp at hlen
  | cons v vs ih =>
      intro ws out s j hlen hv hj
      cases ws with
      | nil => simp at hlen
      | cons w ws =>
          rw [mixLoop]
          have hvlen : v.length = out.length := hv v (by simp)
          have hzlen : (List.zipWith (fun o x => o + x * w) out v).length = out.length := by
            rw [List.length_zipWith, hvlen]; omega
          rw [ih ws _ _ j (by simpa using hlen)
            (fun u hu => by rw [hv u (by simp [hu]), hzlen]) (by omega)]
          have hgz : (List.zipWith (fun o x => o + x * w) out v).getD j 0 =
              out.getD j 0 + v.getD j 0 * w := by
            have hj2 : j < v.length := by omega
            rw [List.getD_eq_getElem _ _ (by omega : j < (List.zipWith (fun o x => o + x * w) out v).length)]
            rw [List.getElem_zipWith]
            rw [List.getD_eq_getElem _ _ hj, List.getD_eq_getElem _ _ hj2]
          rw [hgz]
          simp
          ring

/-- C3: `mixVectors` fails exactly on mismatched lengths; on equal-length
inputs of 32-vectors it returns `sumAbs = Σ|w_i|`, the all-zero vector when
that sum is zero (including the empty input), and otherwise the component-wise
weighted sum divided by `sumAbs`. -/
theorem mixVectors_spec :
    (∀ (vs : List (List ℚ)) (ws : List ℚ),
        (mixVectors vs ws = none ↔ vs.length ≠ ws.length)) ∧
    (∀ (vs : List (List ℚ)) (ws : List ℚ),
        vs.length = ws.length → (∀ v ∈ vs, v.length = 32) →
        ∃ out, mixVectors vs ws = some (out, (ws.map fun w => |w|).sum) ∧
          out.length = 32 ∧
          ((ws.map fun w => |w|).sum = 0 → out = List.replicate 32 0) ∧
          ((ws.map fun w => |w|).sum ≠ 0 → ∀ j < 32,
            out.getD j 0 =
              (((vs.zip ws).map fun p => p.2 * p.1.getD j 0).sum) /
                ((ws.map fun w => |w|).sum))) := by
  constructor
  · intro vs ws
    constructor
    · intro h
      by_contra hne
      simp only [mixVectors, if_neg (show ¬vs.length ≠ ws.length by omega)] at h
      by_cases hz : (mixLoop vs ws (List.replicate 32 0) 0).2 = 0
      · rw [if_pos hz] at h
        exact Option.noConfusion h
      · rw [if_neg hz] at h
        exact Option.noConfusion h
    · intro h
      rw [mixVectors, if_pos h]
  · intro vs ws hlen hv
    have hsum : (mixLoop vs ws (List.replicate 32 0) 0).2 =
        (ws.map fun w => |w|).sum := by
      rw [mixLoop_sum vs ws _ _ hlen]; ring
    by_cases hz : (ws.map fun w => |w|).sum = 0
    · refine ⟨List.replicate 32 0, ?_, by simp, fun _ => rfl, fun hnz => absurd hz hnz⟩
      rw [mixVectors, if_neg (by omega)]
      simp only [hsum, hz]
      simp
    · refine ⟨(mixLoop vs ws (List.replicate 32 0) 0).1.map
        fun x => x / (ws.map fun w => |w|).sum, ?_, ?_, fun h0 => absurd h0 hz, ?_⟩
      · rw [mixVectors, if_neg (by omega)]
        simp only [hsum]
        rw [if_neg hz]
      · rw [List.length_map, mixLoop_length]
        · simp
        · intro u hu; simp [hv u hu]
      · intro _ j hj
        have hcomp := mixLoop_component vs ws (List.replicate 32 0) 0 j hlen
          (fun u hu => by simp [hv u hu]) (by simpa using hj)
        have hjlen : j < (mixLoop vs ws (List.replicate 32 0) 0).1.length := by
          rw [mixLoop_length _ _ _ _ (fun u hu => by simp [hv u hu])]
          simpa using hj
        rw [List.getD_eq_getElem _ _ (by simpa using hjlen), List.getElem_map]
        rw [← List.getD_eq_getElem _ 0 hjlen, hcomp]
        have hrep : (List.replicate 32 (0 : ℚ)).getD j 0 = 0 := by
          rw [List.getD_eq_getElem _ _ (by simpa using hj)]
          exact List.getElem_replicate ..
        rw [hrep, zero_add]

/-- Witness for C3: two one-element channel lists with weights `1` and
`-1/2`, matching the repository test. -/
theorem mixVectors_spec_witness :
    ∃ out, mixVectors [List.replicate 32 1, List.replicate 32 3] [1, -1/2] =
        some (out, (([1, -1/2] : List ℚ).map fun w => |w|).sum) ∧
      out.length = 32 ∧
      ((([1, -1/2] : List ℚ).map fun w => |w|).sum = 0 →
        out = List.replicate 32 0) ∧
      ((([1, -1/2] : List ℚ).map fun w => |w|).sum ≠ 0 → ∀ j < 32,
        out.getD j 0 =
          ((([List.replicate 32 1, List.replicate 32 3].zip
              ([1, -1/2] : List ℚ)).map fun p => p.2 * p.1.getD j 0).sum) /
            ((([1, -1/2] : List ℚ).map fun w => |w|).sum)) :=
  mixVectors_spec.2 [List.replicate 32 1, List.replicate 32 3] [1, -1/2]
    (by decide) (by decide)

/-! ### Mixer: `setMagnitude` (`src/mixer/math.ts`)

`setMagnitude` computes a square root and deliberately distinguishes the IEEE
signed zeros, so its numbers are modelled by `SR`: an exact real value paired
with the IEEE sign bit, which carries information only when the value is
zero.  Multiplication and division combine sign bits by exclusive or, exactly
as IEEE 754 does; `Math.abs` clears the sign bit. -/

/-- A JS number for the `setMagnitude` model: exact real value plus the
IEEE sign bit used when `val = 0` (`negz = true` models `-0`). -/
structure SR where
  val : ℝ
  negz : Bool

section SignedReal

open scoped Classical

/-- The IEEE sign bit of a number: the sign for nonzero values, the stored
zero-sign otherwise. -/
noncomputable def SR.signBit (x : SR) : Bool :=
  if x.val < 0 then true else if x.val = 0 then x.negz else false

/-- IEEE-style product: exact value product, sign bit the exclusive or of
the operand sign bits. -/
noncomputable def SR.mul (a b : SR) : SR :=
  ⟨a.val * b.val, xor a.signBit b.signBit⟩

/-- IEEE-style quotient (only used with a positive divisor here). -/
noncomputable def SR.div (a b : SR) : SR :=
  ⟨a.val / b.val, xor a.signBit b.signBit⟩

/-- `Math.abs`: absolute value with the sign bit cleared. -/
def SR.abs (a : SR) : SR := ⟨|a.val|, false⟩

/-- The `+0` stored by `new Float32Array(n)`. -/
def SR.zero : SR := ⟨0, false⟩

/-- `l2Magnitude`: square root of the sum of squared components.  Squares and
sums of squares carry a positive IEEE sign, so the result is a plain real. -/
noncomputable def l2Magnitude (vec : List SR) : ℝ :=
  Real.sqrt ((vec.map fun x => x.val * x.val).sum)

/-- `setMagnitude`: all-zero output when the magnitude is zero, otherwise
every component is multiplied by `(|target| * sign) / mag` where `sign` is
`-1` when the target is negative or negative zero (`Object.is(targetMag, -0)`),
else `+1`. -/
noncomputable def setMagnitude (vec : List SR) (targetMag : SR) : List SR :=
  let mag := l2Magnitude vec
  if mag = 0 then List.replicate vec.length SR.zero
  else
    let isNegZero := targetMag.val = 0 ∧ targetMag.negz = true
    let sign : SR := if targetMag.val < 0 ∨ isNegZero then ⟨-1, false⟩ else ⟨1, false⟩
    let scale := SR.div (SR.mul (SR.abs targetMag) sign) ⟨mag, false⟩
    vec.map fun x => SR.mul x scale

end SignedReal

/-- The test vector `[3, 4, 0, …]` (30 trailing zeros). -/
noncomputable def vec34 : List SR := ⟨3, false⟩ :: ⟨4, false⟩ :: List.replicate 30 SR.zero

theorem l2Magnitude_nonneg (vec : List SR) : 0 ≤ l2Magnitude vec :=
  Real.sqrt_nonneg _

theorem signBit_pos {x : SR} (h : 0 < x.val) : x.signBit = false := by
  rw [SR.signBit, if_neg (by linarith), if_neg (by linarith)]

theorem signBit_neg {x : SR} (h : x.val < 0) : x.signBit = true := by
  rw [SR.signBit, if_pos h]

theorem signBit_zero {x : SR} (h : x.val = 0) : x.signBit = x.negz := by
  rw [SR.signBit, if_neg (by simp [h]), if_pos h]

theorem setMagnitude_scale_val (vec : List SR) (t : SR)
    (h : l2Magnitude vec ≠ 0) (j : Nat) (hj : j < vec.length) :
    ((setMagnitude vec t).getD j SR.zero) =
      SR.mul (vec.getD j SR.zero)
        (SR.div (SR.mul (SR.abs t)
          (if t.val < 0 ∨ (t.val = 0 ∧ t.negz = true) then ⟨-1, false⟩ else ⟨1, false⟩))
          ⟨l2Magnitude vec, false⟩) := by
  rw [setMagnitude]
  simp only [if_neg h]
  rw [List.getD_eq_getElem _ _ (by simpa using hj), List.getElem_map]
  rw [List.getD_eq_getElem _ _ hj]

/-- C4: `setMagnitude` returns the all-zero vector on a zero-magnitude input;
otherwise it scales every component by `(|t| * sign) / mag` with `sign = -1`
exactly when the target is negative or negative zero; on `[3,4,0,…]` with
target `-10` it returns `[-6,-8,0,…]` within `1e-6`; and a negative-zero
target yields the component-wise sign-bit negation of the positive-zero
result (all values zero, every IEEE sign bit flipped), hence distinguishable. -/
theorem setMagnitude_spec :
    (∀ (vec : List SR) (t : SR), l2Magnitude vec = 0 →
        setMagnitude vec t = List.replicate vec.length SR.zero) ∧
    (∀ (vec : List SR) (t : SR), l2Magnitude vec ≠ 0 → ∀ j < vec.length,
        ((setMagnitude vec t).getD j SR.zero).val =
          (vec.getD j SR.zero).val *
            ((|t.val| * (if t.val < 0 ∨ (t.val = 0 ∧ t.negz = true) then (-1 : ℝ) else 1)) /
              l2Magnitude vec)) ∧
    (|((setMagnitude vec34 ⟨-10, false⟩).getD 0 SR.zero).val - (-6)| ≤ 1 / 1000000 ∧
      |((setMagnitude vec34 ⟨-10, false⟩).getD 1 SR.zero).val - (-8)| ≤ 1 / 1000000 ∧
      ∀ j, 2 ≤ j → j < 32 →
        |((setMagnitude vec34 ⟨-10, false⟩).getD j SR.zero).val| ≤ 1 / 1000000) ∧
    (∀ (vec : List SR), l2Magnitude vec ≠ 0 → ∀ j < vec.length,
        ((setMagnitude vec ⟨0, true⟩).getD j SR.zero).val = 0 ∧
        ((setMagnitude vec ⟨0, false⟩).getD j SR.zero).val = 0 ∧
        ((setMagnitude vec ⟨0, true⟩).getD j SR.zero).negz =
          ! ((setMagnitude vec ⟨0, false⟩).getD j SR.zero).negz) := by
  have hmag34 : l2Magnitude vec34 = 5 := by
    rw [l2Magnitude, vec34]
    simp only [List.map_cons, List.map_replicate, List.sum_cons, List.sum_replicate]
    rw [SR.zero]
    norm_num
    rw [show (25 : ℝ) = 5 ^ 2 by norm_num, Real.sqrt_sq (by norm_num : (0 : ℝ) ≤ 5)]
  have hcomp : ∀ (vec : List SR) (t : SR), l2Magnitude vec ≠ 0 → ∀ j < vec.length,
      ((setMagnitude vec t).getD j SR.zero).val =
        (vec.getD j SR.zero).val *
          ((|t.val| * (if t.val < 0 ∨ (t.val = 0 ∧ t.negz = true) then (-1 : ℝ) else 1)) /
            l2Magnitude vec) := by
    intro vec t h j hj
    rw [setMagnitude_scale_val vec t h j hj]
    by_cases hc : t.val < 0 ∨ (t.val = 0 ∧ t.negz = true)
    · rw [if_pos hc, if_pos hc]
      simp [SR.mul, SR.div, SR.abs]
    · rw [if_neg hc, if_neg hc]
      simp [SR.mul, SR.div, SR.abs]
  refine ⟨?_, hcomp, ?_, ?_⟩
  · intro vec t h
    rw [setMagnitude]
    simp only [if_pos h]
  · have hne : l2Magnitude vec34 ≠ 0 := by rw [hmag34]; norm_num
    have hlen : vec34.length = 32 := by rw [vec34]; simp
    have hval : ∀ j < 32, ((setMagnitude vec34 ⟨-10, false⟩).getD j SR.zero).val =
        (vec34.getD j SR.zero).val * (-2) := by
      intro j hj
      rw [hcomp vec34 ⟨-10, false⟩ hne j (by omega)]
      rw [if_pos (by norm_num)]
      rw [hmag34]
      norm_num
    refine ⟨?_, ?_, ?_⟩
    · rw [hval 0 (by norm_num)]
      rw [show vec34.getD 0 SR.zero = ⟨3, false⟩ from rfl]
      norm_num
    · rw [hval 1 (by norm_num)]
      rw [show vec34.getD 1 SR.zero = ⟨4, false⟩ from rfl]
      norm_num
    · intro j h2 hlt
      rw [hval j hlt]
      rcases j with _ | j
      · omega
      rcases j with _ | k
      · omega
      have hk : k < 30 := by omega
      have : vec34.getD (k + 2) SR.zero = SR.zero := by
        rw [vec34]
        show (List.replicate 30 SR.zero).getD k SR.zero = SR.zero
        rw [List.getD_eq_getElem _ _ (by simpa using hk)]
        exact List.getElem_replicate ..
      rw [this]
      rw [SR.zero]
      norm_num
  · intro vec h j hj
    have hpos : 0 < l2Magnitude vec := lt_of_le_of_ne (l2Magnitude_nonneg vec) (Ne.symm h)
    have hsgn : SR.signBit ⟨l2Magnitude vec, false⟩ = false := signBit_pos hpos
    have hneg : (setMagnitude vec ⟨0, true⟩).getD j SR.zero =
        SR.mul (vec.getD j SR.zero) ⟨0, true⟩ := by
      rw [setMagnitude_scale_val vec ⟨0, true⟩ h j hj]
      rw [if_pos (by simp)]
      have : SR.div (SR.mul (SR.abs ⟨0, true⟩) ⟨-1, false⟩) ⟨l2Magnitude vec, false⟩ =
          ⟨0, true⟩ := by
        rw [SR.abs]
        simp only [SR.mul, SR.div]
        rw [signBit_zero (by norm_num), signBit_neg (by norm_num : ((⟨-1, false⟩ : SR)).val < 0)]
        rw [signBit_zero (by norm_num), hsgn]
        norm_num
      rw [this]
    have hposz : (setMagnitude vec ⟨0, false⟩).getD j SR.zero =
        SR.mul (vec.getD j SR.zero) ⟨0, false⟩ := by
      rw [setMagnitude_scale_val vec ⟨0, false⟩ h j hj]
      rw [if_neg (by simp)]
      have : SR.div (SR.mul (SR.abs ⟨0, false⟩) ⟨1, false⟩) ⟨l2Magnitude vec, false⟩ =
          ⟨0, false⟩ := by
        rw [SR.abs]
        simp only [SR.mul, SR.div]
        rw [signBit_zero (by norm_num), signBit_pos (by norm_num : (0:ℝ) < ((⟨1, false⟩ : SR)).val)]
        rw [signBit_zero (by norm_num), hsgn]
        norm_num
      rw [this]
    rw [hneg, hposz]
    refine ⟨by simp [SR.mul], by simp [SR.mul], ?_⟩
    simp only [SR.mul]
    rw [signBit_zero (show ((⟨0, true⟩ : SR)).val = 0 from rfl),
      signBit_zero (show ((⟨0, false⟩ : SR)).val = 0 from rfl)]
    cases hsb : SR.signBit (vec.getD j SR.zero) <;> simp

/-- Witness for C4: the zero-magnitude case at `[0]`, the scaling formula and
the signed-zero contrast at `[1]`. -/
theorem setMagnitude_spec_witness :
    setMagnitude [SR.zero] ⟨-10, false⟩ = List.replicate 1 SR.zero ∧
    ((setMagnitude [(⟨1, false⟩ : SR)] ⟨-10, false⟩).getD 0 SR.zero).val =
      ((⟨1, false⟩ : SR)).val *
        ((|((⟨-10, false⟩ : SR)).val| *
          (if ((⟨-10, false⟩ : SR)).val < 0 ∨
              (((⟨-10, false⟩ : SR)).val = 0 ∧ ((⟨-10, false⟩ : SR)).negz = true)
            then (-1 : ℝ) else 1)) / l2Magnitude [(⟨1, false⟩ : SR)]) ∧
    ((setMagnitude [(⟨1, false⟩ : SR)] ⟨0, true⟩).getD 0 SR.zero).negz =
      ! ((setMagnitude [(⟨1, false⟩ : SR)] ⟨0, false⟩).getD 0 SR.zero).negz := by
  have hz : l2Magnitude [SR.zero] = 0 := by
    rw [l2Magnitude]
    simp [SR.zero]
  have hone : l2Magnitude [(⟨1, false⟩ : SR)] = 1 := by
    rw [l2Magnitude]
    simp
  have hne : l2Magnitude [(⟨1, false⟩ : SR)] ≠ 0 := by rw [hone]; norm_num
  refine ⟨?_, ?_, ?_⟩
  · have := setMagnitude_spec.1 [SR.zero] ⟨-10, false⟩ hz
    simpa using this
  · exact setMagnitude_spec.2.1 [(⟨1, false⟩ : SR)] ⟨-10, false⟩ hne 0 (by norm_num)
  · exact (setMagnitude_spec.2.2.2 [(⟨1, false⟩ : SR)] hne 0 (by norm_num)).2.2

/-! ### JSON documents (`src/nofs/binary.ts` transforms, `src/nofs/validate.ts`)

A parsed JSON document is a tagged tree.  JSON numbers are exact rationals:
`JSON.parse` only produces finite numbers, and JS objects have distinct keys
in insertion order, modelled by the ordered field list `JFields`. -/

mutual
inductive JVal where
  | null
  | jbool (b : Bool)
  | num (q : ℚ)
  | str (s : String)
  | arr (xs : JList)
  | obj (fs : JFields)
deriving DecidableEq
inductive JList where
  | nil
  | cons (hd : JVal) (tl : JList)
deriving DecidableEq
inductive JFields where
  | nil
  | cons (k : String) (v : JVal) (tl : JFields)
deriving DecidableEq
end

/-- `Object.prototype.hasOwnProperty.call(record, key)`. -/
def hasKeyF : JFields → String → Bool
  | .nil, _ => false
  | .cons k _ tl, key => if k = key then true else hasKeyF tl key

/-- `record[key]`: the value stored under a key (keys are unique in parsed
JSON, so first match). -/
def lookupF : JFields → String → Option JVal
  | .nil, _ => none
  | .cons k v tl, key => if k = key then some v else lookupF tl key

/-- The keys of an object, in insertion order (`Object.keys`). -/
def keysOfF : JFields → List String
  | .nil => []
  | .cons k _ tl => k :: keysOfF tl

/-! ### `floatToHexLE` / `hexToFloatLE` (`src/nofs/binary.ts`)

`floatToHexLE` is `setFloat32` (round-to-nearest-even into IEEE binary32)
followed by upper-case little-endian hex; `hexToFloatLE` is the exact value
of the stored pattern.  NaN and infinity patterns have no rational value, so
`hexToFloatLE` returns `none` for exponent-255 patterns; the migration
transform passes such extras through unchanged in the model (in JS they
decode to `NaN`/`±Infinity`, which cannot occur in a parsed JSON document). -/

/-- Round a rational to the nearest integer, ties to even. -/
def rne (q : ℚ) : ℤ :=
  let f := ⌊q⌋
  let r := q - f
  if r < 1 / 2 then f
  else if 1 / 2 < r then f + 1
  else if f % 2 = 0 then f else f + 1

/-- Floor of the base-2 logarithm of a positive rational. -/
def qFloorLog2 (a : ℚ) : ℤ :=
  if 1 ≤ a then (Nat.log 2 ⌊a⌋.toNat : ℤ)
  else -(Nat.clog 2 ⌈1 / a⌉.toNat : ℤ)

/-- The IEEE binary32 bit pattern nearest a rational value (`setFloat32`):
sign, round-to-nearest-even significand, subnormal flush below `2^-126`,
overflow to the infinity pattern. -/
def roundFloat32bits (q : ℚ) : Nat :=
  if q = 0 then 0
  else
    let s : Nat := if q < 0 then 1 else 0
    let a : ℚ := |q|
    if a < 1 / 2 ^ 126 then
      let m := (rne (a * 2 ^ 149)).toNat
      if m < 2 ^ 23 then s * 2 ^ 31 + m
      else s * 2 ^ 31 + 2 ^ 23
    else
      let e := qFloorLog2 a
      let m0 := (rne (a * (2 : ℚ) ^ ((23 : ℤ) - e))).toNat
      let m := if m0 = 2 ^ 24 then 2 ^ 23 else m0
      let e2 := if m0 = 2 ^ 24 then e + 1 else e
      if 127 < e2 then s * 2 ^ 31 + 255 * 2 ^ 23
      else s * 2 ^ 31 + (e2 + 127).toNat * 2 ^ 23 + (m - 2 ^ 23)

/-- Exact rational value of a binary32 bit pattern; `none` on NaN/infinity
(exponent 255), which the rational number model cannot represent. -/
def float32BitsToRat (w : Nat) : Option ℚ :=
  let s : Nat := w / 2 ^ 31
  let e : Nat := w / 2 ^ 23 % 256
  let frac : Nat := w % 2 ^ 23
  if e = 255 then none
  else
    let mag : ℚ :=
      if e = 0 then (frac : ℚ) * (1 / 2 ^ 149)
      else ((2 : ℚ) ^ 23 + (frac : ℚ)) * (2 : ℚ) ^ ((e : ℤ) - 150)
    some (if s = 1 then -mag else mag)

/-- `floatToHexLE`: 8 upper-case hex characters of the little-endian bytes of
the rounded binary32 pattern. -/
def floatToHexLE (value : ℚ) : String :=
  bytesToHex (wordToBytesLE (roundFloat32bits value))

/-- The `HEX8_RE` test: exactly 8 case-insensitive hex characters. -/
def isHex8 (s : String) : Bool :=
  s.data.length = 8 && s.data.all fun c => (hexCharVal c).isSome

/-- `hexToFloatLE`: fails (`throw` in the source) on non-8-hex input, else
decodes the little-endian binary32 pattern; `none` also stands for the
NaN/infinity patterns that have no rational value. -/
def hexToFloatLE (hex8 : String) : Option ℚ :=
  if isHex8 hex8 then
    match hexPairsToBytes hex8.data with
    | some [b0, b1, b2, b3] =>
        float32BitsToRat (b0 + 256 * b1 + 65536 * b2 + 16777216 * b3)
    | _ => none
  else none

/-! ### FieldMigrator (`src/nofs/binary.ts`)

`transformValueForEncrypt` renames `sing_model` → `pitch_model` (dropping it
when `pitch_model` is already present), gives entries of `styles` arrays the
style treatment (`extra` rewritten, the entry keys themselves untouched), and
recurses elsewhere.  `transformValueForDecrypt` mirrors it with
`pitch_model` → `sing_model` and hex extras decoded to numbers.  The
`hasPitch`/`hasSing` flags are computed once per object, as in the source. -/

/-- The `extra` rewrite of `transformStyleForEncrypt`: a finite number becomes
its 8-hex encoding, an 8-hex string is upper-cased, anything else passes
through unchanged (every number of a parsed JSON document is finite). -/
def encExtraVal : JVal → JVal
  | .num q => .str (floatToHexLE q)
  | .str s => if isHex8 s then .str s.toUpper else .str s
  | w => w

mutual
def transformValueForEncrypt : JVal → JVal
  | .arr xs => .arr (encList xs)
  | .obj fs => .obj (encFields fs (hasKeyF fs ("pitch_model")))
  | v => v
termination_by v => (sizeOf v, 0)
def encList : JList → JList
  | .nil => .nil
  | .cons x xs => .cons (transformValueForEncrypt x) (encList xs)
termination_by xs => (sizeOf xs, 0)
def encFields : JFields → Bool → JFields
  | .nil, _ => .nil
  | .cons k v tl, hasPitch =>
      if k = "sing_model" then
        if hasPitch then encFields tl hasPitch
        else .cons ("pitch_model") (transformValueForEncrypt v) (encFields tl hasPitch)
      else if k = "styles" then .cons k (encStylesVal v) (encFields tl hasPitch)
      else .cons k (transformValueForEncrypt v) (encFields tl hasPitch)
termination_by fs _hp => (sizeOf fs, 0)
def encStylesVal : JVal → JVal
  | .arr xs => .arr (encStyleList xs)
  | w => transformValueForEncrypt w
termination_by v => (sizeOf v, 1)
def encStyleList : JList → JList
  | .nil => .nil
  | .cons x xs => .cons (transformStyleForEncrypt x) (encStyleList xs)
termination_by xs => (sizeOf xs, 0)
def transformStyleForEncrypt : JVal → JVal
  | .obj fs => .obj (encStyleFields fs)
  | v => transformValueForEncrypt v
termination_by v => (sizeOf v, 1)
def encStyleFields : JFields → JFields
  | .nil => .nil
  | .cons k v tl =>
      if k = "extra" then .cons k (encExtraVal v) (encStyleFields tl)
      else .cons k (transformValueForEncrypt v) (encStyleFields tl)
termination_by fs => (sizeOf fs, 0)
end

mutual
def transformValueForDecrypt : JVal → JVal
  | .arr xs => .arr (decList xs)
  | .obj fs => .obj (decFields fs (hasKeyF fs ("sing_model")))
  | v => v
termination_by v => (sizeOf v, 0)
def decList : JList → JList
  | .nil => .nil
  | .cons x xs => .cons (transformValueForDecrypt x) (decList xs)
termination_by xs => (sizeOf xs, 0)
def decFields : JFields → Bool → JFields
  | .nil, _ => .nil
  | .cons k v tl, hasSing =>
      if k = "pitch_model" then
        if hasSing then decFields tl hasSing
        else .cons ("sing_model") (transformValueForDecrypt v) (decFields tl hasSing)
      else if k = "styles" then .cons k (decStylesVal v) (decFields tl hasSing)
      else .cons k (transformValueForDecrypt v) (decFields tl hasSing)
termination_by fs _hs => (sizeOf fs, 0)
def decStylesVal : JVal → JVal
  | .arr xs => .arr (decStyleList xs)
  | w => transformValueForDecrypt w
termination_by v => (sizeOf v, 1)
def decStyleList : JList → JList
  | .nil => .nil
  | .cons x xs => .cons (transformStyleForDecrypt x) (decStyleList xs)
termination_by xs => (sizeOf xs, 0)
def transformStyleForDecrypt : JVal → JVal
  | .obj fs => .obj (decStyleFields fs)
  | v => transformValueForDecrypt v
termination_by v => (sizeOf v, 1)
def decStyleFields : JFields → JFields
  | .nil => .nil
  | .cons k v tl =>
      if k = "extra" then .cons k (decExtraVal v) (decStyleFields tl)
      else .cons k (transformValueForDecrypt v) (decStyleFields tl)
termination_by fs => (sizeOf fs, 0)
def decExtraVal : JVal → JVal
  | .str s =>
      if isHex8 s then
        match hexToFloatLE s with
        | some q => .num q
        | none => .str s
      else transformValueForDecrypt (.str s)
  | w => transformValueForDecrypt w
termination_by v => (sizeOf v, 1)
end

/-! ### Domains on which the migration transforms invert each other

`decFixed` is the class of documents `transformValueForDecrypt` leaves
untouched: no object has a `pitch_model` key and no style extra is an 8-hex
string.  `encClean` carves out the documents on which decryption inverts
encryption (no `pitch_model` key anywhere, no style extra that the encoder
would rewrite, and extras that decryption leaves alone); `decClean` is the
symmetric domain for the other composition. -/

mutual
def decFixed : JVal → Bool
  | .arr xs => decFixedList xs
  | .obj fs => !hasKeyF fs ("pitch_model") && decFixedFields fs
  | _ => true
termination_by v => (sizeOf v, 0)
def decFixedList : JList → Bool
  | .nil => true
  | .cons x xs => decFixed x && decFixedList xs
termination_by xs => (sizeOf xs, 0)
def decFixedFields : JFields → Bool
  | .nil => true
  | .cons k v tl =>
      (if k = "styles" then decFixedStylesVal v else decFixed v) && decFixedFields tl
termination_by fs => (sizeOf fs, 0)
def decFixedStylesVal : JVal → Bool
  | .arr xs => decFixedStyleList xs
  | w => decFixed w
termination_by v => (sizeOf v, 1)
def decFixedStyleList : JList → Bool
  | .nil => true
  | .cons x xs => decFixedStyle x && decFixedStyleList xs
termination_by xs => (sizeOf xs, 0)
def decFixedStyle : JVal → Bool
  | .obj fs => decFixedStyleFields fs
  | v => decFixed v
termination_by v => (sizeOf v, 1)
def decFixedStyleFields : JFields → Bool
  | .nil => true
  | .cons k v tl =>
      (if k = "extra" then decFixedExtraVal v else decFixed v) && decFixedStyleFields tl
termination_by fs => (sizeOf fs, 0)
def decFixedExtraVal : JVal → Bool
  | .str s => !isHex8 s
  | w => decFixed w
termination_by v => (sizeOf v, 1)
end

mutual
theorem decFixed_id (d : JVal) (h : decFixed d = true) :
    transformValueForDecrypt d = d := by
  cases d with
  | arr xs =>
      rw [decFixed] at h
      simp only [transformValueForDecrypt]
      rw [decFixedList_id xs h]
  | obj fs =>
      rw [decFixed, Bool.and_eq_true] at h
      simp only [transformValueForDecrypt]
      rw [decFixedFields_id fs _ (by simpa using h.1) h.2]
  | null => simp [transformValueForDecrypt]
  | jbool b => simp [transformValueForDecrypt]
  | num q => simp [transformValueForDecrypt]
  | str s => simp [transformValueForDecrypt]
termination_by (sizeOf d, 0)
decreasing_by all_goals (subst_vars; decreasing_tactic)
theorem decFixedList_id (xs : JList) (h : decFixedList xs = true) :
    decList xs = xs := by
  cases xs with
  | nil => simp [decList]
  | cons x xs =>
      rw [decFixedList, Bool.and_eq_true] at h
      rw [decList, decFixed_id x h.1, decFixedList_id xs h.2]
termination_by (sizeOf xs, 0)
decreasing_by all_goals (subst_vars; decreasing_tactic)
theorem decFixedFields_id (fs : JFields) (hs : Bool)
    (hnp : hasKeyF fs ("pitch_model") = false) (h : decFixedFields fs = true) :
    decFields fs hs = fs := by
  cases fs with
  | nil => simp [decFields]
  | cons k v tl =>
      rw [hasKeyF] at hnp
      by_cases hk : k = "pitch_model"
      · rw [if_pos hk] at hnp
        exact absurd hnp (by simp)
      rw [if_neg hk] at hnp
      rw [decFixedFields, Bool.and_eq_true] at h
      rw [decFields, if_neg hk]
      by_cases hsty : k = "styles"
      · rw [if_pos hsty] at h ⊢
        rw [decFixedStylesVal_id v h.1, decFixedFields_id tl hs hnp h.2]
      · rw [if_neg hsty] at h ⊢
        rw [decFixed_id v h.1, decFixedFields_id tl hs hnp h.2]
termination_by (sizeOf fs, 0)
decreasing_by all_goals (subst_vars; decreasing_tactic)
theorem decFixedStylesVal_id (v : JVal) (h : decFixedStylesVal v = true) :
    decStylesVal v = v := by
  cases v with
  | arr xs =>
      rw [decFixedStylesVal] at h
      rw [decStylesVal, decFixedStyleList_id xs h]
  | obj fs =>
      simp only [decFixedStylesVal] at h
      simp only [decStylesVal]
      exact decFixed_id _ h
  | null => simp [decStylesVal, transformValueForDecrypt]
  | jbool b => simp [decStylesVal, transformValueForDecrypt]
  | num q => simp [decStylesVal, transformValueForDecrypt]
  | str s => simp [decStylesVal, transformValueForDecrypt]
termination_by (sizeOf v, 1)
decreasing_by all_goals (subst_vars; decreasing_tactic)
theorem decFixedStyleList_id (xs : JList) (h : decFixedStyleList xs = true) :
    decStyleList xs = xs := by
  cases xs with
  | nil => simp [decStyleList]
  | cons x xs =>
      rw [decFixedStyleList, Bool.and_eq_true] at h
      rw [decStyleList, decFixedStyle_id x h.1, decFixedStyleList_id xs h.2]
termination_by (sizeOf xs, 0)
decreasing_by all_goals (subst_vars; decreasing_tactic)
theorem decFixedStyle_id (x : JVal) (h : decFixedStyle x = true) :
    transformStyleForDecrypt x = x := by
  cases x with
  | obj fs =>
      rw [decFixedStyle] at h
      simp only [transformStyleForDecrypt]
      rw [decFixedStyleFields_id fs h]
  | arr xs =>
      simp only [decFixedStyle] at h
      simp only [transformStyleForDecrypt]
      exact decFixed_id _ h
  | null => simp [transformStyleForDecrypt, transformValueForDecrypt]
  | jbool b => simp [transformStyleForDecrypt, transformValueForDecrypt]
  | num q => simp [transformStyleForDecrypt, transformValueForDecrypt]
  | str s => simp [transformStyleForDecrypt, transformValueForDecrypt]
termination_by (sizeOf x, 1)
decreasing_by all_goals (subst_vars; decreasing_tactic)
theorem decFixedStyleFields_id (fs : JFields) (h : decFixedStyleFields fs = true) :
    decStyleFields fs = fs := by
  cases fs with
  | nil => simp [decStyleFields]
  | cons k v tl =>
      rw [decFixedStyleFields, Bool.and_eq_true] at h
      rw [decStyleFields]
      by_cases hk : k = "extra"
      · rw [if_pos hk] at h ⊢
        rw [decFixedExtraVal_id v h.1, decFixedStyleFields_id tl h.2]
      · rw [if_neg hk] at h ⊢
        rw [decFixed_id v h.1, decFixedStyleFields_id tl h.2]
termination_by (sizeOf fs, 0)
decreasing_by all_goals (subst_vars; decreasing_tactic)
theorem decFixedExtraVal_id (v : JVal) (h : decFixedExtraVal v = true) :
    decExtraVal v = v := by
  cases v with
  | str s =>
      rw [decFixedExtraVal] at h
      have hhex : isHex8 s = false := by simpa using h
      rw [decExtraVal, hhex]
      simp [transformValueForDecrypt]
  | arr xs =>
      simp only [decFixedExtraVal] at h
      simp only [decExtraVal]
      exact decFixed_id _ h
  | obj fs =>
      simp only [decFixedExtraVal] at h
      simp only [decExtraVal]
      exact decFixed_id _ h
  | null => simp [decExtraVal, transformValueForDecrypt]
  | jbool b => simp [decExtraVal, transformValueForDecrypt]
  | num q => simp [decExtraVal, transformValueForDecrypt]
termination_by (sizeOf v, 1)
decreasing_by all_goals (subst_vars; decreasing_tactic)
end

/-- Style extras that both transforms pass through unchanged: not a number
(the encoder would hex-encode it), not an 8-hex string (the encoder would
upper-case it, the decoder would turn it into a number), and untouched by
the decoder, which recurses into non-hex extras. -/
def extraUntouched : JVal → Bool
  | .num _ => false
  | .str s => !isHex8 s
  | w => decFixed w

mutual
def encClean : JVal → Bool
  | .arr xs => encCleanList xs
  | .obj fs => !hasKeyF fs ("pitch_model") && encCleanFields fs
  | _ => true
termination_by v => (sizeOf v, 0)
def encCleanList : JList → Bool
  | .nil => true
  | .cons x xs => encClean x && encCleanList xs
termination_by xs => (sizeOf xs, 0)
def encCleanFields : JFields → Bool
  | .nil => true
  | .cons k v tl =>
      (if k = "styles" then encCleanStylesVal v else encClean v) && encCleanFields tl
termination_by fs => (sizeOf fs, 0)
def encCleanStylesVal : JVal → Bool
  | .arr xs => encCleanStyleList xs
  | w => encClean w
termination_by v => (sizeOf v, 1)
def encCleanStyleList : JList → Bool
  | .nil => true
  | .cons x xs => encCleanStyle x && encCleanStyleList xs
termination_by xs => (sizeOf xs, 0)
def encCleanStyle : JVal → Bool
  | .obj fs => encCleanStyleFields fs
  | v => encClean v
termination_by v => (sizeOf v, 1)
def encCleanStyleFields : JFields → Bool
  | .nil => true
  | .cons k v tl =>
      (if k = "extra" then extraUntouched v else encClean v) && encCleanStyleFields tl
termination_by fs => (sizeOf fs, 0)
end

mutual
def decClean : JVal → Bool
  | .arr xs => decCleanList xs
  | .obj fs => !hasKeyF fs ("sing_model") && decCleanFields fs
  | _ => true
termination_by v => (sizeOf v, 0)
def decCleanList : JList → Bool
  | .nil => true
  | .cons x xs => decClean x && decCleanList xs
termination_by xs => (sizeOf xs, 0)
def decCleanFields : JFields → Bool
  | .nil => true
  | .cons k v tl =>
      (if k = "styles" then decCleanStylesVal v else decClean v) && decCleanFields tl
termination_by fs => (sizeOf fs, 0)
def decCleanStylesVal : JVal → Bool
  | .arr xs => decCleanStyleList xs
  | w => decClean w
termination_by v => (sizeOf v, 1)
def decCleanStyleList : JList → Bool
  | .nil => true
  | .cons x xs => decCleanStyle x && decCleanStyleList xs
termination_by xs => (sizeOf xs, 0)
def decCleanStyle : JVal → Bool
  | .obj fs => decCleanStyleFields fs
  | v => decClean v
termination_by v => (sizeOf v, 1)
def decCleanStyleFields : JFields → Bool
  | .nil => true
  | .cons k v tl =>
      (if k = "extra" then extraUntouched v else decClean v) && decCleanStyleFields tl
termination_by fs => (sizeOf fs, 0)
end

/-- The encoder never emits a `sing_model` key: it renames or drops them. -/
theorem encFields_no_sing (fs : JFields) (hp : Bool) :
    hasKeyF (encFields fs hp) ("sing_model") = false := by
  cases fs with
  | nil => simp [encFields, hasKeyF]
  | cons k v tl =>
      rw [encFields]
      by_cases hks : k = "sing_model"
      · rw [if_pos hks]
        cases hp with
        | true =>
            simp only [if_true]
            exact encFields_no_sing tl true
        | false =>
            simp only [Bool.false_eq_true, if_false, hasKeyF]
            rw [if_neg (by decide)]
            exact encFields_no_sing tl false
      · rw [if_neg hks]
        by_cases hsty : k = "styles"
        · rw [if_pos hsty, hasKeyF, if_neg (by rw [hsty]; decide)]
          exact encFields_no_sing tl hp
        · rw [if_neg hsty, hasKeyF, if_neg hks]
          exact encFields_no_sing tl hp
termination_by sizeOf fs

/-- The decoder never emits a `pitch_model` key. -/
theorem decFields_no_pitch (fs : JFields) (hs : Bool) :
    hasKeyF (decFields fs hs) ("pitch_model") = false := by
  cases fs with
  | nil => simp [decFields, hasKeyF]
  | cons k v tl =>
      rw [decFields]
      by_cases hkp : k = "pitch_model"
      · rw [if_pos hkp]
        cases hs with
        | true =>
            simp only [if_true]
            exact decFields_no_pitch tl true
        | false =>
            simp only [Bool.false_eq_true, if_false, hasKeyF]
            rw [if_neg (by decide)]
            exact decFields_no_pitch tl false
      · rw [if_neg hkp]
        by_cases hsty : k = "styles"
        · rw [if_pos hsty, hasKeyF, if_neg (by rw [hsty]; decide)]
          exact decFields_no_pitch tl hs
        · rw [if_neg hsty, hasKeyF, if_neg hkp]
          exact decFields_no_pitch tl hs
termination_by sizeOf fs

/-- An untouched extra survives encoding followed by decoding. -/
theorem extraUntouched_enc_dec (v : JVal) (h : extraUntouched v = true) :
    decExtraVal (encExtraVal v) = v := by
  cases v with
  | num q => exact absurd h (by simp [extraUntouched])
  | str s =>
      have hhex : isHex8 s = false := by simpa [extraUntouched] using h
      rw [encExtraVal, hhex]
      simp only [Bool.false_eq_true, if_false]
      rw [decExtraVal, hhex]
      simp [transformValueForDecrypt]
  | null => simp [encExtraVal, decExtraVal, transformValueForDecrypt]
  | jbool b => simp [encExtraVal, decExtraVal, transformValueForDecrypt]
  | arr xs =>
      simp only [extraUntouched] at h
      simp only [encExtraVal, decExtraVal]
      exact decFixed_id _ h
  | obj fs =>
      simp only [extraUntouched] at h
      simp only [encExtraVal, decExtraVal]
      exact decFixed_id _ h

/-- An untouched extra survives decoding followed by encoding. -/
theorem extraUntouched_dec_enc (v : JVal) (h : extraUntouched v = true) :
    encExtraVal (decExtraVal v) = v := by
  cases v with
  | num q => exact absurd h (by simp [extraUntouched])
  | str s =>
      have hhex : isHex8 s = false := by simpa [extraUntouched] using h
      rw [decExtraVal, hhex]
      simp only [Bool.false_eq_true, if_false]
      rw [show transformValueForDecrypt (.str s) = .str s from by
        simp [transformValueForDecrypt]]
      rw [encExtraVal, hhex]
      simp
  | null => simp [encExtraVal, decExtraVal, transformValueForDecrypt]
  | jbool b => simp [encExtraVal, decExtraVal, transformValueForDecrypt]
  | arr xs =>
      simp only [extraUntouched] at h
      simp only [decExtraVal]
      rw [decFixed_id _ h]
      simp [encExtraVal]
  | obj fs =>
      simp only [extraUntouched] at h
      simp only [decExtraVal]
      rw [decFixed_id _ h]
      simp [encExtraVal]

mutual
theorem encClean_roundtrip (d : JVal) (h : encClean d = true) :
    transformValueForDecrypt (transformValueForEncrypt d) = d := by
  cases d with
  | arr xs =>
      simp only [encClean] at h
      simp only [transformValueForEncrypt, transformValueForDecrypt]
      rw [encCleanList_roundtrip xs h]
  | obj fs =>
      simp only [encClean, Bool.and_eq_true] at h
      have hnp : hasKeyF fs ("pitch_model") = false := by simpa using h.1
      simp only [transformValueForEncrypt, hnp, transformValueForDecrypt]
      rw [encFields_no_sing]
      rw [encCleanFields_roundtrip fs hnp h.2]
  | null => simp [transformValueForEncrypt, transformValueForDecrypt]
  | jbool b => simp [transformValueForEncrypt, transformValueForDecrypt]
  | num q => simp [transformValueForEncrypt, transformValueForDecrypt]
  | str s => simp [transformValueForEncrypt, transformValueForDecrypt]
termination_by (sizeOf d, 0)
decreasing_by all_goals (subst_vars; decreasing_tactic)
theorem encCleanList_roundtrip (xs : JList) (h : encCleanList xs = true) :
    decList (encList xs) = xs := by
  cases xs with
  | nil => simp [encList, decList]
  | cons x xs =>
      rw [encCleanList, Bool.and_eq_true] at h
      rw [encList, decList, encClean_roundtrip x h.1, encCleanList_roundtrip xs h.2]
termination_by (sizeOf xs, 0)
decreasing_by all_goals (subst_vars; decreasing_tactic)
theorem encCleanFields_roundtrip (fs : JFields)
    (hnp : hasKeyF fs ("pitch_model") = false) (h : encCleanFields fs = true) :
    decFields (encFields fs false) false = fs := by
  cases fs with
  | nil => simp [encFields, decFields]
  | cons k v tl =>
      rw [hasKeyF] at hnp
      by_cases hkp : k = "pitch_model"
      · rw [if_pos hkp] at hnp
        exact absurd hnp (by simp)
      rw [if_neg hkp] at hnp
      rw [encCleanFields, Bool.and_eq_true] at h
      rw [encFields]
      by_cases hks : k = "sing_model"
      · subst hks
        simp only [reduceIte] at h ⊢
        simp only [Bool.false_eq_true, if_false]
        rw [decFields]
        simp only [reduceIte, Bool.false_eq_true, if_false]
        rw [encClean_roundtrip v h.1, encCleanFields_roundtrip tl hnp h.2]
      · rw [if_neg hks]
        by_cases hsty : k = "styles"
        · subst hsty
          simp only [reduceIte] at h ⊢
          rw [decFields]
          simp only [reduceIte]
          rw [encCleanStylesVal_roundtrip v h.1, encCleanFields_roundtrip tl hnp h.2]
          simp
        · rw [if_neg hsty]
          rw [if_neg hsty] at h
          rw [decFields, if_neg hkp, if_neg hsty]
          rw [encClean_roundtrip v h.1, encCleanFields_roundtrip tl hnp h.2]
termination_by (sizeOf fs, 0)
decreasing_by all_goals (subst_vars; decreasing_tactic)
theorem encCleanStylesVal_roundtrip (v : JVal) (h : encCleanStylesVal v = true) :
    decStylesVal (encStylesVal v) = v := by
  cases v with
  | arr xs =>
      simp only [encCleanStylesVal] at h
      simp only [encStylesVal, decStylesVal]
      rw [encCleanStyleList_roundtrip xs h]
  | obj fs =>
      simp only [encCleanStylesVal] at h
      have henc : transformValueForEncrypt (.obj fs) =
          .obj (encFields fs (hasKeyF fs ("pitch_model"))) := by
        simp [transformValueForEncrypt]
      simp only [encStylesVal]
      rw [henc]
      simp only [decStylesVal]
      rw [← henc]
      exact encClean_roundtrip (.obj fs) h
  | null => simp [encStylesVal, decStylesVal, transformValueForEncrypt, transformValueForDecrypt]
  | jbool b => simp [encStylesVal, decStylesVal, transformValueForEncrypt, transformValueForDecrypt]
  | num q => simp [encStylesVal, decStylesVal, transformValueForEncrypt, transformValueForDecrypt]
  | str s => simp [encStylesVal, decStylesVal, transformValueForEncrypt, transformValueForDecrypt]
termination_by (sizeOf v, 1)
decreasing_by all_goals (subst_vars; decreasing_tactic)
theorem encCleanStyleList_roundtrip (xs : JList) (h : encCleanStyleList xs = true) :
    decStyleList (encStyleList xs) = xs := by
  cases xs with
  | nil => simp [encStyleList, decStyleList]
  | cons x xs =>
      rw [encCleanStyleList, Bool.and_eq_true] at h
      rw [encStyleList, decStyleList, encCleanStyle_roundtrip x h.1,
        encCleanStyleList_roundtrip xs h.2]
termination_by (sizeOf xs, 0)
decreasing_by all_goals (subst_vars; decreasing_tactic)
theorem encCleanStyle_roundtrip (x : JVal) (h : encCleanStyle x = true) :
    transformStyleForDecrypt (transformStyleForEncrypt x) = x := by
  cases x with
  | obj fs =>
      simp only [encCleanStyle] at h
      simp only [transformStyleForEncrypt, transformStyleForDecrypt]
      rw [encCleanStyleFields_roundtrip fs h]
  | arr xs =>
      simp only [encCleanStyle, encClean] at h
      simp only [transformStyleForEncrypt]
      rw [show transformValueForEncrypt (.arr xs) = .arr (encList xs) from by
        simp [transformValueForEncrypt]]
      simp only [transformStyleForDecrypt]
      rw [show transformValueForDecrypt (.arr (encList xs)) = .arr (decList (encList xs)) from by
        simp [transformValueForDecrypt]]
      rw [encCleanList_roundtrip xs h]
  | null =>
      simp [transformStyleForEncrypt, transformStyleForDecrypt, transformValueForEncrypt,
        transformValueForDecrypt]
  | jbool b =>
      simp [transformStyleForEncrypt, transformStyleForDecrypt, transformValueForEncrypt,
        transformValueForDecrypt]
  | num q =>
      simp [transformStyleForEncrypt, transformStyleForDecrypt, transformValueForEncrypt,
        transformValueForDecrypt]
  | str s =>
      simp [transformStyleForEncrypt, transformStyleForDecrypt, transformValueForEncrypt,
        transformValueForDecrypt]
termination_by (sizeOf x, 1)
decreasing_by all_goals (subst_vars; decreasing_tactic)
theorem encCleanStyleFields_roundtrip (fs : JFields) (h : encCleanStyleFields fs = true) :
    decStyleFields (encStyleFields fs) = fs := by
  cases fs with
  | nil => simp [encStyleFields, decStyleFields]
  | cons k v tl =>
      rw [encCleanStyleFields, Bool.and_eq_true] at h
      rw [encStyleFields]
      by_cases hk : k = "extra"
      · subst hk
        simp only [reduceIte] at h ⊢
        rw [decStyleFields]
        simp only [reduceIte]
        rw [extraUntouched_enc_dec v h.1, encCleanStyleFields_roundtrip tl h.2]
      · rw [if_neg hk]
        rw [if_neg hk] at h
        rw [decStyleFields, if_neg hk]
        rw [encClean_roundtrip v h.1, encCleanStyleFields_roundtrip tl h.2]
termination_by (sizeOf fs, 0)
decreasing_by all_goals (subst_vars; decreasing_tactic)
end

mutual
theorem decClean_roundtrip (d : JVal) (h : decClean d = true) :
    transformValueForEncrypt (transformValueForDecrypt d) = d := by
  cases d with
  | arr xs =>
      simp only [decClean] at h
      simp only [transformValueForDecrypt, transformValueForEncrypt]
      rw [decCleanList_roundtrip xs h]
  | obj fs =>
      simp only [decClean, Bool.and_eq_true] at h
      have hns : hasKeyF fs ("sing_model") = false := by simpa using h.1
      simp only [transformValueForDecrypt, hns, transformValueForEncrypt]
      rw [decFields_no_pitch]
      rw [decCleanFields_roundtrip fs hns h.2]
  | null => simp [transformValueForEncrypt, transformValueForDecrypt]
  | jbool b => simp [transformValueForEncrypt, transformValueForDecrypt]
  | num q => simp [transformValueForEncrypt, transformValueForDecrypt]
  | str s => simp [transformValueForEncrypt, transformValueForDecrypt]
termination_by (sizeOf d, 0)
decreasing_by all_goals (subst_vars; decreasing_tactic)
theorem decCleanList_roundtrip (xs : JList) (h : decCleanList xs = true) :
    encList (decList xs) = xs := by
  cases xs with
  | nil => simp [encList, decList]
  | cons x xs =>
      rw [decCleanList, Bool.and_eq_true] at h
      rw [decList, encList, decClean_roundtrip x h.1, decCleanList_roundtrip xs h.2]
termination_by (sizeOf xs, 0)
decreasing_by all_goals (subst_vars; decreasing_tactic)
theorem decCleanFields_roundtrip (fs : JFields)
    (hns : hasKeyF fs ("sing_model") = false) (h : decCleanFields fs = true) :
    encFields (decFields fs false) false = fs := by
  cases fs with
  | nil => simp [encFields, decFields]
  | cons k v tl =>
      rw [hasKeyF] at hns
      by_cases hks : k = "sing_model"
      · rw [if_pos hks] at hns
        exact absurd hns (by simp)
      rw [if_neg hks] at hns
      rw [decCleanFields, Bool.and_eq_true] at h
      rw [decFields]
      by_cases hkp : k = "pitch_model"
      · subst hkp
        simp only [reduceIte] at h ⊢
        simp only [Bool.false_eq_true, if_false]
        rw [encFields]
        simp only [reduceIte, Bool.false_eq_true, if_false]
        rw [decClean_roundtrip v h.1, decCleanFields_roundtrip tl hns h.2]
      · rw [if_neg hkp]
        by_cases hsty : k = "styles"
        · subst hsty
          simp only [reduceIte] at h ⊢
          rw [encFields]
          simp only [reduceIte]
          rw [decCleanStylesVal_roundtrip v h.1, decCleanFields_roundtrip tl hns h.2]
          simp
        · rw [if_neg hsty]
          rw [if_neg hsty] at h
          rw [encFields, if_neg hks, if_neg hsty]
          rw [decClean_roundtrip v h.1, decCleanFields_roundtrip tl hns h.2]
termination_by (sizeOf fs, 0)
decreasing_by all_goals (subst_vars; decreasing_tactic)
theorem decCleanStylesVal_roundtrip (v : JVal) (h : decCleanStylesVal v = true) :
    encStylesVal (decStylesVal v) = v := by
  cases v with
  | arr xs =>
      simp only [decCleanStylesVal] at h
      simp only [decStylesVal, encStylesVal]
      rw [decCleanStyleList_roundtrip xs h]
  | obj fs =>
      simp only [decCleanStylesVal] at h
      have hdec : transformValueForDecrypt (.obj fs) =
          .obj (decFields fs (hasKeyF fs ("sing_model"))) := by
        simp [transformValueForDecrypt]
      simp only [decStylesVal]
      rw [hdec]
      simp only [encStylesVal]
      rw [← hdec]
      exact decClean_roundtrip (.obj fs) h
  | null => simp [encStylesVal, decStylesVal, transformValueForEncrypt, transformValueForDecrypt]
  | jbool b => simp [encStylesVal, decStylesVal, transformValueForEncrypt, transformValueForDecrypt]
  | num q => simp [encStylesVal, decStylesVal, transformValueForEncrypt, transformValueForDecrypt]
  | str s => simp [encStylesVal, decStylesVal, transformValueForEncrypt, transformValueForDecrypt]
termination_by (sizeOf v, 1)
decreasing_by all_goals (subst_vars; decreasing_tactic)
theorem decCleanStyleList_roundtrip (xs : JList) (h : decCleanStyleList xs = true) :
    encStyleList (decStyleList xs) = xs := by
  cases xs with
  | nil => simp [encStyleList, decStyleList]
  | cons x xs =>
      rw [decCleanStyleList, Bool.and_eq_true] at h
      rw [decStyleList, encStyleList, decCleanStyle_roundtrip x h.1,
        decCleanStyleList_roundtrip xs h.2]
termination_by (sizeOf xs, 0)
decreasing_by all_goals (subst_vars; decreasing_tactic)
theorem decCleanStyle_roundtrip (x : JVal) (h : decCleanStyle x = true) :
    transformStyleForEncrypt (transformStyleForDecrypt x) = x := by
  cases x with
  | obj fs =>
      simp only [decCleanStyle] at h
      simp only [transformStyleForDecrypt, transformStyleForEncrypt]
      rw [decCleanStyleFields_roundtrip fs h]
  | arr xs =>
      simp only [decCleanStyle, decClean] at h
      simp only [transformStyleForDecrypt]
      rw [show transformValueForDecrypt (.arr xs) = .arr (decList xs) from by
        simp [transformValueForDecrypt]]
      simp only [transformStyleForEncrypt]
      rw [show transformValueForEncrypt (.arr (decList xs)) = .arr (encList (decList xs)) from by
        simp [transformValueForEncrypt]]
      rw [decCleanList_roundtrip xs h]
  | null =>
      simp [transformStyleForEncrypt, transformStyleForDecrypt, transformValueForEncrypt,
        transformValueForDecrypt]
  | jbool b =>
      simp [transformStyleForEncrypt, transformStyleForDecrypt, transformValueForEncrypt,
        transformValueForDecrypt]
  | num q =>
      simp [transformStyleForEncrypt, transformStyleForDecrypt, transformValueForEncrypt,
        transformValueForDecrypt]
  | str s =>
      simp [transformStyleForEncrypt, transformStyleForDecrypt, transformValueForEncrypt,
        transformValueForDecrypt]
termination_by (sizeOf x, 1)
decreasing_by all_goals (subst_vars; decreasing_tactic)
theorem decCleanStyleFields_roundtrip (fs : JFields) (h : decCleanStyleFields fs = true) :
    encStyleFields (decStyleFields fs) = fs := by
  cases fs with
  | nil => simp [encStyleFields, decStyleFields]
  | cons k v tl =>
      rw [decCleanStyleFields, Bool.and_eq_true] at h
      rw [decStyleFields]
      by_cases hk : k = "extra"
      · subst hk
        simp only [reduceIte] at h ⊢
        rw [encStyleFields]
        simp only [reduceIte]
        rw [extraUntouched_dec_enc v h.1, decCleanStyleFields_roundtrip tl h.2]
      · rw [if_neg hk]
        rw [if_neg hk] at h
        rw [encStyleFields, if_neg hk]
        rw [decClean_roundtrip v h.1, decCleanStyleFields_roundtrip tl h.2]
termination_by (sizeOf fs, 0)
decreasing_by all_goals (subst_vars; decreasing_tactic)
end

/-- C2 counterexample: `{"pitch_model": null}` contains no object with both
model keys (it has no `sing_model` at all), yet decrypt-after-encrypt turns
it into `{"sing_model": null}`: the transforms are not mutually inverse on
every such document. -/
theorem migration_not_inverse_counterexample :
    transformValueForDecrypt (transformValueForEncrypt
        (JVal.obj (.cons ("pitch_model") .null .nil))) =
      JVal.obj (.cons ("sing_model") .null .nil) ∧
    JVal.obj (JFields.cons ("sing_model") JVal.null JFields.nil) ≠
      JVal.obj (JFields.cons ("pitch_model") JVal.null JFields.nil) ∧
    hasKeyF (JFields.cons ("pitch_model") JVal.null JFields.nil) ("sing_model") = false := by
  refine ⟨?_, by decide, by decide⟩
  simp [transformValueForEncrypt, encFields, hasKeyF, transformValueForDecrypt, decFields]

/-- C2 (amended): the two migration transforms are mutually inverse on their
respective clean domains: decryption inverts encryption on documents with no
`pitch_model` key in any object and no style extra that the transforms
rewrite (a finite number or an 8-hex string, or an extra value the decoder
would alter); symmetrically, encryption inverts decryption on documents with
no `sing_model` key and the same extra restriction. -/
theorem migration_roundtrip_amended :
    (∀ d : JVal, encClean d = true →
        transformValueForDecrypt (transformValueForEncrypt d) = d) ∧
    (∀ d : JVal, decClean d = true →
        transformValueForEncrypt (transformValueForDecrypt d) = d) :=
  ⟨encClean_roundtrip, decClean_roundtrip⟩

/-- Witness for C2 (amended): a modern document `{"sing_model": null}` and a
legacy document `{"pitch_model": null}` each survive their round trip. -/
theorem migration_roundtrip_amended_witness :
    (encClean (JVal.obj (.cons ("sing_model") .null .nil)) = true ∧
      transformValueForDecrypt (transformValueForEncrypt
          (JVal.obj (.cons ("sing_model") .null .nil))) =
        JVal.obj (.cons ("sing_model") .null .nil)) ∧
    (decClean (JVal.obj (.cons ("pitch_model") .null .nil)) = true ∧
      transformValueForEncrypt (transformValueForDecrypt
          (JVal.obj (.cons ("pitch_model") .null .nil))) =
        JVal.obj (.cons ("pitch_model") .null .nil)) := by
  have h1 : encClean (JVal.obj (.cons ("sing_model") .null .nil)) = true := by
    simp [encClean, encCleanFields, hasKeyF]
  have h2 : decClean (JVal.obj (.cons ("pitch_model") .null .nil)) = true := by
    simp [decClean, decCleanFields, hasKeyF]
  exact ⟨⟨h1, migration_roundtrip_amended.1 _ h1⟩, ⟨h2, migration_roundtrip_amended.2 _ h2⟩⟩

/-- Keys after encoding an object with no `pitch_model` key: `sing_model` is
renamed in place, all other keys survive in order. -/
theorem encFields_keys_no_pitch (fs : JFields)
    (hnp : hasKeyF fs ("pitch_model") = false) :
    keysOfF (encFields fs false) =
      (keysOfF fs).map (fun k => if k = "sing_model" then "pitch_model" else k) := by
  cases fs with
  | nil => simp [encFields, keysOfF]
  | cons k v tl =>
      rw [hasKeyF] at hnp
      by_cases hkp : k = "pitch_model"
      · rw [if_pos hkp] at hnp
        exact absurd hnp (by simp)
      rw [if_neg hkp] at hnp
      rw [encFields, keysOfF]
      by_cases hks : k = "sing_model"
      · subst hks
        simp only [reduceIte, Bool.false_eq_true, if_false, keysOfF]
        rw [encFields_keys_no_pitch tl hnp]
        simp
      · rw [if_neg hks]
        by_cases hsty : k = "styles"
        · subst hsty
          simp only [reduceIte, keysOfF]
          rw [encFields_keys_no_pitch tl hnp]
          simp
        · rw [if_neg hsty]
          simp only [keysOfF, List.map_cons, if_neg hks]
          rw [encFields_keys_no_pitch tl hnp]
termination_by sizeOf fs

/-- The value stored under `pitch_model` after encoding is the transformed
value previously stored under `sing_model`. -/
theorem encFields_lookup_pitch (fs : JFields)
    (hnp : hasKeyF fs ("pitch_model") = false) :
    lookupF (encFields fs false) ("pitch_model") =
      (lookupF fs ("sing_model")).map transformValueForEncrypt := by
  cases fs with
  | nil => simp [encFields, lookupF]
  | cons k v tl =>
      rw [hasKeyF] at hnp
      by_cases hkp : k = "pitch_model"
      · rw [if_pos hkp] at hnp
        exact absurd hnp (by simp)
      rw [if_neg hkp] at hnp
      rw [encFields, lookupF]
      by_cases hks : k = "sing_model"
      · subst hks
        simp only [reduceIte, Bool.false_eq_true, if_false, lookupF, reduceIte]
        simp
      · rw [if_neg hks, if_neg hks]
        by_cases hsty : k = "styles"
        · subst hsty
          simp only [reduceIte, lookupF]
          rw [if_neg (by decide)]
          exact encFields_lookup_pitch tl hnp
        · rw [if_neg hsty, lookupF, if_neg hkp]
          exact encFields_lookup_pitch tl hnp
termination_by sizeOf fs

/-- Keys after encoding an object that already has `pitch_model`: the
`sing_model` key is dropped, everything else survives in order. -/
theorem encFields_keys_with_pitch (fs : JFields) :
    keysOfF (encFields fs true) = (keysOfF fs).filter (fun k => k != "sing_model") := by
  cases fs with
  | nil => simp [encFields, keysOfF]
  | cons k v tl =>
      rw [encFields, keysOfF]
      by_cases hks : k = "sing_model"
      · subst hks
        simp only [reduceIte, if_true, List.filter_cons]
        rw [encFields_keys_with_pitch tl]
        simp
      · rw [if_neg hks]
        by_cases hsty : k = "styles"
        · subst hsty
          simp only [reduceIte, keysOfF, List.filter_cons]
          rw [encFields_keys_with_pitch tl]
          simp
        · rw [if_neg hsty]
          simp only [keysOfF, List.filter_cons]
          rw [encFields_keys_with_pitch tl]
          have : (k != "sing_model") = true := by simpa using hks
          simp [this]
termination_by sizeOf fs

/-- The style transform preserves every key of a style object: in particular
it never renames `sing_model`. -/
theorem encStyleFields_keys (fs : JFields) :
    keysOfF (encStyleFields fs) = keysOfF fs := by
  cases fs with
  | nil => simp [encStyleFields, keysOfF]
  | cons k v tl =>
      rw [encStyleFields]
      by_cases hk : k = "extra"
      · rw [if_pos hk, keysOfF, keysOfF, encStyleFields_keys tl]
      · rw [if_neg hk, keysOfF, keysOfF, encStyleFields_keys tl]
termination_by sizeOf fs

/-- C5 counterexample: the document `{"styles": [{"sing_model": null}]}` is
returned unchanged by the encrypt transform — the style entry keeps its
`sing_model` key (and gains no `pitch_model`), although it is an object
containing `sing_model` without `pitch_model`. -/
theorem toLegacy_styles_counterexample :
    transformValueForEncrypt
        (JVal.obj (.cons ("styles")
          (JVal.arr (.cons (JVal.obj (.cons ("sing_model") .null .nil)) .nil)) .nil)) =
      JVal.obj (.cons ("styles")
        (JVal.arr (.cons (JVal.obj (.cons ("sing_model") .null .nil)) .nil)) .nil) ∧
    JVal.obj (JFields.cons ("sing_model") JVal.null JFields.nil) ≠
      JVal.obj (JFields.cons ("pitch_model") JVal.null JFields.nil) ∧
    hasKeyF (JFields.cons ("sing_model") JVal.null JFields.nil) ("pitch_model") = false := by
  refine ⟨?_, by decide, by decide⟩
  simp [transformValueForEncrypt, encFields, hasKeyF, encStylesVal, encStyleList,
    transformStyleForEncrypt, encStyleFields]

/-- C5 (amended): the encrypt transform renames `sing_model` → `pitch_model`
(carrying the transformed value) in every object reached in value position —
dropping `sing_model` when `pitch_model` is already present — and recurses
into arrays unconditionally, but the top level of an object that is an entry
of a `styles` array is exempt from the rename: the style transform preserves
style-entry keys and only rewrites `extra`. -/
theorem toLegacy_rename_spec :
    (∀ fs : JFields, hasKeyF fs ("pitch_model") = false →
        transformValueForEncrypt (JVal.obj fs) = JVal.obj (encFields fs false) ∧
        keysOfF (encFields fs false) =
          (keysOfF fs).map (fun k => if k = "sing_model" then "pitch_model" else k) ∧
        lookupF (encFields fs false) ("pitch_model") =
          (lookupF fs ("sing_model")).map transformValueForEncrypt) ∧
    (∀ fs : JFields, hasKeyF fs ("pitch_model") = true →
        transformValueForEncrypt (JVal.obj fs) = JVal.obj (encFields fs true) ∧
        keysOfF (encFields fs true) = (keysOfF fs).filter (fun k => k != "sing_model")) ∧
    (∀ fs : JFields, transformStyleForEncrypt (JVal.obj fs) = JVal.obj (encStyleFields fs) ∧
        keysOfF (encStyleFields fs) = keysOfF fs) ∧
    (∀ xs : JList, transformValueForEncrypt (JVal.arr xs) = JVal.arr (encList xs)) := by
  refine ⟨?_, ?_, ?_, ?_⟩
  · intro fs hnp
    refine ⟨?_, encFields_keys_no_pitch fs hnp, encFields_lookup_pitch fs hnp⟩
    simp [transformValueForEncrypt, hnp]
  · intro fs hp
    refine ⟨?_, encFields_keys_with_pitch fs⟩
    simp [transformValueForEncrypt, hp]
  · intro fs
    exact ⟨by simp [transformStyleForEncrypt], encStyleFields_keys fs⟩
  · intro xs
    simp [transformValueForEncrypt]

/-- Witness for C5 (amended) on concrete objects exercising the rename, the
drop and the style-entry exemption. -/
theorem toLegacy_rename_spec_witness :
    (transformValueForEncrypt (JVal.obj (.cons ("sing_model") .null .nil)) =
        JVal.obj (encFields (.cons ("sing_model") .null .nil) false) ∧
      keysOfF (encFields (.cons ("sing_model") .null .nil) false) =
        (keysOfF (JFields.cons ("sing_model") JVal.null JFields.nil)).map
          (fun k => if k = "sing_model" then "pitch_model" else k) ∧
      lookupF (encFields (.cons ("sing_model") .null .nil) false) ("pitch_model") =
        (lookupF (JFields.cons ("sing_model") JVal.null JFields.nil) ("sing_model")).map
          transformValueForEncrypt) ∧
    (transformValueForEncrypt
        (JVal.obj (.cons ("sing_model") .null (.cons ("pitch_model") .null .nil))) =
        JVal.obj (encFields (.cons ("sing_model") .null (.cons ("pitch_model") .null .nil)) true) ∧
      keysOfF (encFields (.cons ("sing_model") .null (.cons ("pitch_model") .null .nil)) true) =
        (keysOfF (JFields.cons ("sing_model") JVal.null
          (JFields.cons ("pitch_model") JVal.null JFields.nil))).filter
          (fun k => k != "sing_model")) := by
  constructor
  · exact toLegacy_rename_spec.1 (.cons ("sing_model") .null .nil) (by decide)
  · exact (toLegacy_rename_spec.2.1
      (.cons ("sing_model") .null (.cons ("pitch_model") .null .nil)) (by decide))

/-! ### BinaryCodec (`src/nofs/binary.ts`)

Buffers are byte lists.  The AES-256-CBC cipher and `crypto.randomBytes` are
external library calls, not code of this repository: the encrypt model takes
the IV and ciphertext they produce as arguments and assembles the container
exactly as the source does; the decrypt model performs every check of the
source and returns the extracted IV and ciphertext on which the source would
then invoke the external decipher. -/

/-- The ASCII bytes of `"SVDB"`. -/
def svdbMagic : List Nat := [83, 86, 68, 66]

/-- `HEADER_TEMPLATE_HEX` from the source, verbatim. -/
def headerTemplateHex : String :=
  "80F500000A0000000000000000000000440000000010E633BABA5400000000000000024C86BE7600000000000000245C5C699500000000000000A03A9696B000000000000000000000000000000000004400000022000000010012002E666561747572655F66305F7669626D6F6400000000220000001F00000001000F002E666561747572655F66305F6F726E000000001F0000001B00000001000B0066306D6F64656C2D646473000000001B00000028100000010004007E7F7F7F14100000"

/-- The 192 bytes of the header template. -/
def headerTemplate : List Nat := (hexPairsToBytes headerTemplateHex.data).getD []

/-- `Buffer.readUInt32LE`. -/
def readUInt32LE (b : List Nat) (off : Nat) : Nat :=
  b.getD off 0 + 256 * b.getD (off + 1) 0 + 65536 * b.getD (off + 2) 0 +
    16777216 * b.getD (off + 3) 0

/-- `Buffer.writeUInt32LE`: splice the four little-endian bytes at `off`.
Node throws on a value of `2^32` or more or an out-of-range offset; every use
below stays in range, as the length hypotheses of the theorems record. -/
def writeUInt32LE (b : List Nat) (off : Nat) (v : Nat) : List Nat :=
  b.take off ++ wordToBytesLE v ++ b.drop (off + 4)

/-- `buildHeader`: copy the template, patch `0xB0 ← svdbLength + 20` and
`0xBC ← svdbLength`; fails if the template does not have 192 bytes. -/
def buildHeader (svdbLength : Nat) : Option (List Nat) :=
  if headerTemplate.length = 192 then
    some (writeUInt32LE (writeUInt32LE headerTemplate 0xb0 (svdbLength + 20)) 0xbc svdbLength)
  else none

/-- `encryptJsonToNofs`, parametrised by the externally produced IV and
ciphertext: `header ‖ "SVDB" ‖ iv ‖ ciphertext ‖ trailer` with
`svdbLength = 20 + len(ciphertext)` and trailer `svdbLength + 20`. -/
def encryptJsonToNofs (iv ciphertext : List Nat) : Option (List Nat) :=
  (buildHeader (20 + ciphertext.length)).map fun header =>
    header ++ svdbMagic ++ iv ++ ciphertext ++ wordToBytesLE ((20 + ciphertext.length) + 20)

/-- `decryptNofsToJson`, up to the external decipher: the size check, the
magic check and the three length-field checks of the source, in order; on
success the extracted IV and ciphertext are returned (the source would then
decipher, JSON-parse and apply `transformValueForDecrypt`).  Every failure is
an `Except.error` carrying the thrown message, so no partial result exists. -/
def decryptNofsToJson (nofsBytes : List Nat) : Except String (List Nat × List Nat) :=
  if nofsBytes.length < 192 + 4 + 16 + 4 then .error ("Invalid NOFS file size.")
  else
    let magic := (nofsBytes.drop 192).take 4
    if magic ≠ svdbMagic then .error ("Missing SVDB header.")
    else
      let iv := (nofsBytes.drop 196).take 16
      let ciphertext := (nofsBytes.drop 212).take (nofsBytes.length - 4 - 212)
      let svdbLength := 20 + ciphertext.length
      let headerSvdb := readUInt32LE nofsBytes 0xbc
      let headerTotal := readUInt32LE nofsBytes 0xb0
      let trailer := readUInt32LE nofsBytes (nofsBytes.length - 4)
      if headerSvdb ≠ svdbLength ∨ headerTotal ≠ svdbLength + 20 ∨
          trailer ≠ svdbLength + 20 then
        .error ("NOFS length fields mismatch.")
      else .ok (iv, ciphertext)

theorem headerTemplate_length : headerTemplate.length = 192 := by decide

theorem getD_append_lt (l1 l2 : List Nat) :
    ∀ i, i < l1.length → (l1 ++ l2).getD i 0 = l1.getD i 0 := by
  induction l1 with
  | nil => intro i h; simp at h
  | cons a l ih =>
      intro i h
      cases i with
      | zero => rfl
      | succ j =>
          simp only [List.cons_append, List.getD_cons_succ]
          exact ih j (by simpa using h)

theorem getD_append_ge (l1 l2 : List Nat) :
    ∀ i, (l1 ++ l2).getD (l1.length + i) 0 = l2.getD i 0 := by
  induction l1 with
  | nil => intro i; simp
  | cons a l ih =>
      intro i
      simp only [List.cons_append, List.length_cons]
      rw [show l.length + 1 + i = (l.length + i) + 1 by omega, List.getD_cons_succ]
      exact ih i

theorem getD_take_lt (l : List Nat) :
    ∀ n i, i < n → (l.take n).getD i 0 = l.getD i 0 := by
  induction l with
  | nil => intro n i _; simp
  | cons a l ih =>
      intro n i h
      cases n with
      | zero => omega
      | succ m =>
          cases i with
          | zero => rfl
          | succ j =>
              simp only [List.take_succ_cons, List.getD_cons_succ]
              exact ih m j (by omega)

theorem readUInt32LE_append_left (b1 b2 : List Nat) (off : Nat) (h : off + 4 ≤ b1.length) :
    readUInt32LE (b1 ++ b2) off = readUInt32LE b1 off := by
  rw [readUInt32LE, readUInt32LE,
    getD_append_lt b1 b2 off (by omega),
    getD_append_lt b1 b2 (off + 1) (by omega),
    getD_append_lt b1 b2 (off + 2) (by omega),
    getD_append_lt b1 b2 (off + 3) (by omega)]

theorem readUInt32LE_at (a r : List Nat) (v : Nat) :
    readUInt32LE (a ++ (wordToBytesLE v ++ r)) a.length = v % 4294967296 := by
  rw [readUInt32LE]
  rw [show a.length + 1 = a.length + 1 from rfl]
  rw [show (a ++ (wordToBytesLE v ++ r)).getD a.length 0 =
      (wordToBytesLE v ++ r).getD 0 0 from by
    rw [show a.length = a.length + 0 by omega, getD_append_ge]]
  rw [show (a ++ (wordToBytesLE v ++ r)).getD (a.length + 1) 0 =
      (wordToBytesLE v ++ r).getD 1 0 from getD_append_ge a _ 1]
  rw [show (a ++ (wordToBytesLE v ++ r)).getD (a.length + 2) 0 =
      (wordToBytesLE v ++ r).getD 2 0 from getD_append_ge a _ 2]
  rw [show (a ++ (wordToBytesLE v ++ r)).getD (a.length + 3) 0 =
      (wordToBytesLE v ++ r).getD 3 0 from getD_append_ge a _ 3]
  simp only [wordToBytesLE, List.cons_append, List.getD_cons_succ, List.getD_cons_zero]
  omega

theorem length_writeUInt32LE (b : List Nat) (off v : Nat) (h : off + 4 ≤ b.length) :
    (writeUInt32LE b off v).length = b.length := by
  simp only [writeUInt32LE, List.length_append, List.length_take, List.length_drop,
    wordToBytesLE, List.length_cons, List.length_nil]
  omega

theorem readUInt32LE_write_same (b : List Nat) (off v : Nat) (h : off + 4 ≤ b.length) :
    readUInt32LE (writeUInt32LE b off v) off = v % 4294967296 := by
  have hlen : (b.take off).length = off := by
    simp only [List.length_take]
    omega
  have h2 := readUInt32LE_at (b.take off) (b.drop (off + 4)) v
  rw [hlen] at h2
  rw [writeUInt32LE, List.append_assoc]
  exact h2

theorem readUInt32LE_write_lower (b : List Nat) (off1 off2 v : Nat)
    (h1 : off1 + 4 ≤ off2) (h2 : off2 ≤ b.length) :
    readUInt32LE (writeUInt32LE b off2 v) off1 = readUInt32LE b off1 := by
  have hlen : (b.take off2).length = off2 := by
    simp only [List.length_take]
    omega
  rw [writeUInt32LE, List.append_assoc,
    readUInt32LE_append_left _ _ off1 (by omega)]
  rw [readUInt32LE, readUInt32LE,
    getD_take_lt b off2 off1 (by omega),
    getD_take_lt b off2 (off1 + 1) (by omega),
    getD_take_lt b off2 (off1 + 2) (by omega),
    getD_take_lt b off2 (off1 + 3) (by omega)]

/-- C7: for every IV and ciphertext the external cipher can produce (any
16-byte IV, ciphertext shorter than the 4 GiB Node buffer range), the
container built by `encryptJsonToNofs` carries `20 + ciphertextLength` in the
u32 field at `0xBC`, that value plus 20 both in the u32 field at `0xB0` and
in the final 4-byte trailer, and the magic `"SVDB"` at offset 192. -/
theorem encryptJsonToNofs_layout (iv ciphertext : List Nat) (hiv : iv.length = 16)
    (hct : ciphertext.length + 40 < 4294967296) :
    ∃ out, encryptJsonToNofs iv ciphertext = some out ∧
      readUInt32LE out 0xbc = 20 + ciphertext.length ∧
      readUInt32LE out 0xb0 = (20 + ciphertext.length) + 20 ∧
      readUInt32LE out (out.length - 4) = (20 + ciphertext.length) + 20 ∧
      (out.drop 192).take 4 = svdbMagic := by
  have htpl := headerTemplate_length
  set L : Nat := 20 + ciphertext.length with hL
  have hinner : (writeUInt32LE headerTemplate 0xb0 (L + 20)).length = 192 := by
    rw [length_writeUInt32LE _ _ _ (by omega), htpl]
  set header : List Nat :=
    writeUInt32LE (writeUInt32LE headerTemplate 0xb0 (L + 20)) 0xbc L with hhdr
  have hhlen : header.length = 192 := by
    rw [hhdr, length_writeUInt32LE _ _ _ (by omega), hinner]
  have hbuild : buildHeader L = some header := by
    rw [buildHeader, if_pos htpl]
  refine ⟨header ++ svdbMagic ++ iv ++ ciphertext ++ wordToBytesLE (L + 20), ?_, ?_, ?_, ?_, ?_⟩
  · rw [encryptJsonToNofs, ← hL, hbuild]
    rfl
  · rw [show header ++ svdbMagic ++ iv ++ ciphertext ++ wordToBytesLE (L + 20) =
        header ++ (svdbMagic ++ (iv ++ (ciphertext ++ wordToBytesLE (L + 20)))) from by
      simp [List.append_assoc]]
    rw [readUInt32LE_append_left _ _ 0xbc (by omega)]
    rw [hhdr, readUInt32LE_write_same _ _ _ (by omega)]
    omega
  · rw [show header ++ svdbMagic ++ iv ++ ciphertext ++ wordToBytesLE (L + 20) =
        header ++ (svdbMagic ++ (iv ++ (ciphertext ++ wordToBytesLE (L + 20)))) from by
      simp [List.append_assoc]]
    rw [readUInt32LE_append_left _ _ 0xb0 (by omega)]
    rw [hhdr, readUInt32LE_write_lower _ _ _ _ (by omega) (by omega),
      readUInt32LE_write_same _ _ _ (by omega)]
    omega
  · have hpre : (header ++ svdbMagic ++ iv ++ ciphertext).length = 212 + ciphertext.length := by
      simp [List.length_append, hhlen, hiv, svdbMagic]
      omega
    have hshape : header ++ svdbMagic ++ iv ++ ciphertext ++ wordToBytesLE (L + 20) =
        (header ++ svdbMagic ++ iv ++ ciphertext) ++ (wordToBytesLE (L + 20) ++ []) := by
      simp
    rw [hshape]
    have hlenout : ((header ++ svdbMagic ++ iv ++ ciphertext) ++
        (wordToBytesLE (L + 20) ++ [])).length - 4 =
        (header ++ svdbMagic ++ iv ++ ciphertext).length := by
      simp only [List.length_append, wordToBytesLE, List.length_cons, List.length_nil]
      omega
    rw [hlenout, readUInt32LE_at]
    omega
  · rw [show header ++ svdbMagic ++ iv ++ ciphertext ++ wordToBytesLE (L + 20) =
        header ++ (svdbMagic ++ (iv ++ (ciphertext ++ wordToBytesLE (L + 20)))) from by
      simp [List.append_assoc]]
    rw [show (192 : Nat) = header.length from hhlen.symm, List.drop_left]
    rw [show (4 : Nat) = svdbMagic.length from rfl, List.take_left]

/-- Witness for C7 with an all-zero IV and a one-block (16-byte) ciphertext. -/
theorem encryptJsonToNofs_layout_witness :
    ∃ out, encryptJsonToNofs (List.replicate 16 0) (List.replicate 16 0) = some out ∧
      readUInt32LE out 0xbc = 20 + (List.replicate 16 (0 : Nat)).length ∧
      readUInt32LE out 0xb0 = (20 + (List.replicate 16 (0 : Nat)).length) + 20 ∧
      readUInt32LE out (out.length - 4) = (20 + (List.replicate 16 (0 : Nat)).length) + 20 ∧
      (out.drop 192).take 4 = svdbMagic :=
  encryptJsonToNofs_layout (List.replicate 16 0) (List.replicate 16 0)
    (by decide) (by decide)

deriving instance DecidableEq for Except

/-- A 216-byte container whose only defect is the `0xBC` length field
(21 instead of 20; total and trailer fields correct). -/
def badNofs1 : List Nat :=
  List.replicate 176 0 ++ [40, 0, 0, 0] ++ List.replicate 8 0 ++ [21, 0, 0, 0] ++
    svdbMagic ++ List.replicate 16 0 ++ [40, 0, 0, 0]

/-- A 216-byte container whose only defect is the trailer (41 instead of 40;
both header fields correct). -/
def badNofs2 : List Nat :=
  List.replicate 176 0 ++ [40, 0, 0, 0] ++ List.replicate 8 0 ++ [20, 0, 0, 0] ++
    svdbMagic ++ List.replicate 16 0 ++ [41, 0, 0, 0]

/-- C6 counterexample: a failure of the `0xBC` check alone and a failure of
the trailer check alone produce the identical error value — the integrity
error does not name which of the three length checks failed. -/
theorem decryptNofsToJson_error_counterexample :
    decryptNofsToJson badNofs1 = .error ("NOFS length fields mismatch.") ∧
    decryptNofsToJson badNofs2 = .error ("NOFS length fields mismatch.") ∧
    readUInt32LE badNofs1 0xbc ≠ 20 ∧ readUInt32LE badNofs1 0xb0 = 40 ∧
    readUInt32LE badNofs1 (badNofs1.length - 4) = 40 ∧
    readUInt32LE badNofs2 0xbc = 20 ∧ readUInt32LE badNofs2 0xb0 = 40 ∧
    readUInt32LE badNofs2 (badNofs2.length - 4) ≠ 40 := by
  decide

/-- C6 (amended): `decryptNofsToJson` fails with the size error on buffers
shorter than 216 bytes, with the magic error when the bytes at offset 192
are not `"SVDB"`, and — with `svdbLength` recomputed as 20 plus the
ciphertext length — with the single integrity error
`"NOFS length fields mismatch."` (which does not identify the failing check)
whenever the u32 at `0xBC` differs from `svdbLength`, the u32 at `0xB0`
differs from `svdbLength + 20`, or the u32 trailer differs from
`svdbLength + 20`; every failure is an error value, never a partial result. -/
theorem decryptNofsToJson_failures (b : List Nat) :
    (b.length < 216 → decryptNofsToJson b = .error ("Invalid NOFS file size.")) ∧
    (216 ≤ b.length → (b.drop 192).take 4 ≠ svdbMagic →
      decryptNofsToJson b = .error ("Missing SVDB header.")) ∧
    (216 ≤ b.length → (b.drop 192).take 4 = svdbMagic →
      (readUInt32LE b 0xbc ≠ 20 + (b.length - 216) ∨
        readUInt32LE b 0xb0 ≠ (20 + (b.length - 216)) + 20 ∨
        readUInt32LE b (b.length - 4) ≠ (20 + (b.length - 216)) + 20) →
      decryptNofsToJson b = .error ("NOFS length fields mismatch.")) ∧
    (∀ e, decryptNofsToJson b = .error e → ∀ r, decryptNofsToJson b ≠ .ok r) := by
  have hct : ((b.drop 212).take (b.length - 4 - 212)).length =
      min (b.length - 4 - 212) (b.length - 212) := by
    simp [List.length_take, List.length_drop]
  refine ⟨?_, ?_, ?_, ?_⟩
  · intro h
    rw [decryptNofsToJson, if_pos (by omega)]
  · intro h hm
    rw [decryptNofsToJson, if_neg (by omega)]
    simp only []
    rw [if_pos hm]
  · intro h hm hbad
    rw [decryptNofsToJson, if_neg (by omega)]
    simp only []
    rw [if_neg (by simpa using hm)]
    rw [if_pos (by rw [hct]; omega)]
  · intro e he r
    rw [he]
    simp

/-- Witness for C6 (amended): each failure branch on a concrete buffer. -/
theorem decryptNofsToJson_failures_witness :
    decryptNofsToJson [] = .error ("Invalid NOFS file size.") ∧
    decryptNofsToJson (List.replicate 216 0) = .error ("Missing SVDB header.") ∧
    decryptNofsToJson badNofs1 = .error ("NOFS length fields mismatch.") :=
  ⟨(decryptNofsToJson_failures []).1 (by decide),
    (decryptNofsToJson_failures (List.replicate 216 0)).2.1 (by decide) (by decide),
    (decryptNofsToJson_failures badNofs1).2.2.1 (by decide) (by decide) (by decide)⟩

/-- C10: the decoder never inspects the 184 header bytes outside the two
length fields: every buffer of length at least 216 with `"SVDB"` at offset
192 and mutually consistent length fields passes all checks and reaches the
external decipher with the extracted IV and ciphertext, regardless of the
remaining header content (`b` is arbitrary outside the constrained bytes;
whether the ciphertext then decrypts to parseable JSON is up to the external
crypto library and parser the source calls next). -/
theorem decryptNofsToJson_accepts (b : List Nat) (hlen : 216 ≤ b.length)
    (hmagic : (b.drop 192).take 4 = svdbMagic)
    (h1 : readUInt32LE b 0xbc = 20 + (b.length - 216))
    (h2 : readUInt32LE b 0xb0 = (20 + (b.length - 216)) + 20)
    (h3 : readUInt32LE b (b.length - 4) = (20 + (b.length - 216)) + 20) :
    decryptNofsToJson b =
      .ok ((b.drop 196).take 16, (b.drop 212).take (b.length - 4 - 212)) := by
  have hct : ((b.drop 212).take (b.length - 4 - 212)).length =
      min (b.length - 4 - 212) (b.length - 212) := by
    simp [List.length_take, List.length_drop]
  rw [decryptNofsToJson, if_neg (by omega)]
  simp only []
  rw [if_neg (by simpa using hmagic)]
  rw [if_neg (by rw [hct]; omega)]

/-- A fully consistent 216-byte container (empty ciphertext, zero header
bytes everywhere outside the two patched fields). -/
def goodNofs : List Nat :=
  List.replicate 176 0 ++ [40, 0, 0, 0] ++ List.replicate 8 0 ++ [20, 0, 0, 0] ++
    svdbMagic ++ List.replicate 16 0 ++ [40, 0, 0, 0]

/-- Witness for C10: `goodNofs` has header bytes that differ from the fixed
template everywhere outside the two length fields, yet is accepted. -/
theorem decryptNofsToJson_accepts_witness :
    decryptNofsToJson goodNofs =
      .ok ((goodNofs.drop 196).take 16,
        (goodNofs.drop 212).take (goodNofs.length - 4 - 212)) :=
  decryptNofsToJson_accepts goodNofs (by decide) (by decide) (by decide) (by decide) (by decide)

/-! ### ConfigValidator (`src/nofs/validate.ts`)

Issues carry a message, a severity and a structural path; the root error of
the source has no path, modelled by the empty path.  The fixed allow-lists
are transcribed verbatim. -/

inductive PathElem where
  | key (s : String)
  | idx (n : Nat)
deriving DecidableEq

inductive IssueSeverity where
  | error
  | warning
deriving DecidableEq

structure ValidationIssue where
  message : String
  severity : IssueSeverity
  path : List PathElem
deriving DecidableEq

structure ValidationResult where
  errors : List ValidationIssue
  warnings : List ValidationIssue
deriving DecidableEq

def ALLOWED_LANGUAGES : List String :=
  ["japanese", "english", "mandarin", "cantonese", "spanish"]

def PHONESET_BY_LANGUAGE : List (String × String) :=
  [("japanese", "romaji"), ("english", "arpabet"), ("mandarin", "xsampa"),
   ("cantonese", "xsampa"), ("spanish", "xsampa")]

def ALLOWED_SING_MODEL : List String :=
  ["1a83aa71cb09e94bb8171a4f34d22cac", "2a73920b4208f2d5ba53bced8a528a14",
   "35222088c37134c7629d6873c0386d8d", "3f649ae6cb04ee4f7e9a7ed72ee29928",
   "4f4bf0c0ae33571c79e21b1c25993e15", "76d1e71c936b82714d0ead9628903355",
   "92e5ef5b10e68bef3c1fb03c880e6be2", "b0dbc93ad9636601a8a24425788a884e"]

def ALLOWED_BASE_MODEL : List String :=
  ["0cc8e47f4cbc55274c8af9ddd3b99952", "2c233d8e9b19f1f4dc0276ba3a5542c1",
   "6e5da191faa421a20b529b40c3aa4968", "a0a5cc5b70b4e3a3fe5eb071ab70c614",
   "a174a445b871f7030c06cbe274c13389", "bcef8d939a3650f86de9c302b9f4056d",
   "ca6345d21bfd023c1b15203883a431a8", "dad774b887823741dac345c0d9915628",
   "e6e3e69c5e1adc6d11cf8fae282c2f6b", "e9d97f23d28c3fd45d7cb8a9671b234d",
   "ef3c4c606a7c4b0668fdd31f493081ee", "f98eefe8922c4a7adad07e4d152d039b"]

def ALLOWED_TIMING_MODEL : List String :=
  ["1537c807a892bb00136c22a8edce6b64", "23c6a5b548be9b9213b265d7f9f5c03b",
   "301264b6f8f7486759f0148d2b746dd2", "33d9aff20e1dc7f1e381cf4594a10429",
   "77aa9ba5b60e41fa11b9ad45f2862cb8", "7b0ea690ada94b4484b50d9d64a21cae",
   "7c291fdb51d0272da213c0fcb22f41f7", "9c539330eb7536195947ddf988515128",
   "a04629a795e8398ff0ab6baa9ffc04e0", "b6f4d2a1af8be8fb2b6c1d2ebdb0ce10"]

def ALLOWED_F0_MODEL : List String :=
  ["074caf0d79b926635bb8c1c36d2c0a36", "2c80cc20997ce222724d41faf44d0917",
   "4f6aff3f6430407dd436a88a29121777", "6316b70ba33c5e2446ec34100a678f98",
   "a4d108b4c61c9ca18f4f8cd297968a90", "a59fb01761a71d193e4afbd559bc4e6e",
   "a9db2025114e13e294bf89461d8515a7", "dcee89442f69984189a5b2aedbf9f090",
   "ef62a18bec034f62c75d7428757757bf", "f3a5378c141a1af88a311055fad488fb"]

def TOP_LEVEL_KEYS : List String :=
  ["name", "version", "vendor", "language", "phoneset", "support_languages",
   "base_model", "sing_model", "timing_model", "f0_model", "styles", "pitch",
   "timing"]

def STYLE_KEYS : List String := ["name", "data", "extra"]

/-- `typeof value === "string"` with the string extracted (`undefined` for a
missing key is `none`). -/
def asStrOpt : Option JVal → Option String
  | some (.str s) => some s
  | _ => none

/-- `requireString`. -/
def requireString (fs : JFields) (key : String) : List ValidationIssue :=
  match asStrOpt (lookupF fs key) with
  | some _ => []
  | none => [⟨"\"" ++ key ++ "\" must be a string.", .error, [.key key]⟩]

/-- The regex `^(\d+)(?:([ab])(\d+))?$`: digits, optionally `a` or `b`
followed by digits, end of string. -/
def versionMatches (s : String) : Bool :=
  let p1 := s.data.span fun c => c.isDigit
  if p1.1.isEmpty then false
  else
    match p1.2 with
    | [] => true
    | c :: rest2 =>
        (c == 'a' || c == 'b') &&
          (let p2 := rest2.span fun c => c.isDigit
           !p2.1.isEmpty && p2.2.isEmpty)

/-- `validateVersion`: the matched groups are digit strings, so the
non-negative-integer re-check of the source never fires here (in JS it can
only fire when `parseInt` overflows to a non-integer float on astronomically
long digit strings). -/
def validateVersion (v : Option JVal) : List ValidationIssue :=
  match asStrOpt v with
  | none => [⟨"\"version\" must be a string.", .error, [.key ("version")]⟩]
  | some s =>
      if versionMatches s then []
      else [⟨"\"version\" must match <int>[a|b<int>].", .error, [.key ("version")]⟩]

/-- `validateLanguage`. -/
def validateLanguage (v : Option JVal) : List ValidationIssue :=
  match asStrOpt v with
  | none => [⟨"\"language\" must be a string.", .error, [.key ("language")]⟩]
  | some s =>
      if ALLOWED_LANGUAGES.contains s.toLower then []
      else
        [⟨"\"language\" must be one of: " ++ String.intercalate (", ") ALLOWED_LANGUAGES ++
          ".", .error, [.key ("language")]⟩]

/-- `PHONESET_BY_LANGUAGE.get`. -/
def lookupPhoneset : List (String × String) → String → Option String
  | [], _ => none
  | (k, v) :: tl, lang => if k = lang then some v else lookupPhoneset tl lang

/-- `validatePhoneset`: silent unless the language is a known one. -/
def validatePhoneset (language phoneset : Option JVal) : List ValidationIssue :=
  match asStrOpt language with
  | none => []
  | some ls =>
      match lookupPhoneset PHONESET_BY_LANGUAGE ls.toLower with
      | none => []
      | some expected =>
          match asStrOpt phoneset with
          | none => [⟨"\"phoneset\" must be a string.", .error, [.key ("phoneset")]⟩]
          | some ps =>
              if ps.toLower = expected then []
              else
                [⟨"\"phoneset\" must be \"" ++ expected ++ "\" when language is \"" ++
                  ls.toLower ++ "\".", .error, [.key ("phoneset")]⟩]

/-- The `forEach` of `validateSupportLanguages`. -/
def supportLangLoop : JList → Nat → List ValidationIssue
  | .nil, _ => []
  | .cons e tl, i =>
      (match asStrOpt (some e) with
       | none =>
          [⟨"support_languages entries must be strings.", .error,
            [.key ("support_languages"), .idx i]⟩]
       | some s =>
          if ALLOWED_LANGUAGES.contains s.toLower then []
          else
            [⟨"\"support_languages\" must be one of: " ++
              String.intercalate (", ") ALLOWED_LANGUAGES ++ ".", .error,
              [.key ("support_languages"), .idx i]⟩]) ++ supportLangLoop tl (i + 1)

/-- `validateSupportLanguages`. -/
def validateSupportLanguages (v : Option JVal) : List ValidationIssue :=
  match v with
  | some (.arr xs) => supportLangLoop xs 0
  | _ => [⟨"\"support_languages\" must be an array.", .error, [.key ("support_languages")]⟩]

/-- `validateModelId`. -/
def validateModelId (v : Option JVal) (allowed : List String) (key : String) :
    List ValidationIssue :=
  match asStrOpt v with
  | none => [⟨"\"" ++ key ++ "\" must be a string.", .error, [.key key]⟩]
  | some s =>
      if allowed.contains s then []
      else [⟨"\"" ++ key ++ "\" must be one of the approved IDs.", .error, [.key key]⟩]

/-- `validateHex`: a string of exactly `length` case-insensitive hex
characters. -/
def validateHex (v : Option JVal) (length : Nat) (path : List PathElem) :
    List ValidationIssue :=
  match asStrOpt v with
  | none => [⟨"Hex value must be a string.", .error, path⟩]
  | some s =>
      if s.data.length = length ∧ s.data.all (fun c => (hexCharVal c).isSome) then []
      else
        [⟨"Hex value must be exactly " ++ toString length ++ " hex characters.",
          .error, path⟩]

/-- The error pushed for a style name containing a space. -/
def styleSpaceIssue (i : Nat) : ValidationIssue :=
  ⟨"style.name cannot contain spaces.", .error, [.key ("styles"), .idx i, .key ("name")]⟩

/-- The error pushed for the second and later occurrences of a name. -/
def styleDupIssue (s : String) (i : Nat) : ValidationIssue :=
  ⟨"Duplicate style name \"" ++ s ++ "\".", .error,
    [.key ("styles"), .idx i, .key ("name")]⟩

/-- The error pushed for a non-string style name. -/
def styleNameTypeIssue (i : Nat) : ValidationIssue :=
  ⟨"style.name must be a string.", .error, [.key ("styles"), .idx i, .key ("name")]⟩

/-- The error pushed for a non-object style entry. -/
def styleEntryObjIssue (i : Nat) : ValidationIssue :=
  ⟨"Each style entry must be an object.", .error, [.key ("styles"), .idx i]⟩

/-- Unknown-key warnings of one style object. -/
def styleUnknownWarnings : JFields → Nat → List ValidationIssue
  | .nil, _ => []
  | .cons k _ tl, i =>
      (if STYLE_KEYS.contains k then []
       else [⟨"Unknown style key \"" ++ k ++ "\".", .warning,
         [.key ("styles"), .idx i, .key k]⟩]) ++ styleUnknownWarnings tl i

/-- The `forEach` of `validateStyles`: per entry, the object check, unknown-key
warnings, the name checks against the `seen` set (the name is added to `seen`
after the duplicate check, in every string-name case), then the data check. -/
def styleLoop : JList → Nat → List String → List ValidationIssue × List ValidationIssue
  | .nil, _, _ => ([], [])
  | .cons e tl, i, seen =>
      match e with
      | .obj fs =>
          let warns := styleUnknownWarnings fs i
          let nameRes : List ValidationIssue × List String :=
            match asStrOpt (lookupF fs ("name")) with
            | some s =>
                ((if s.data.contains ' ' then [styleSpaceIssue i] else []) ++
                  (if seen.contains s then [styleDupIssue s i] else []), seen ++ [s])
            | none => ([styleNameTypeIssue i], seen)
          let dataErrs :=
            validateHex (lookupF fs ("data")) 256 [.key ("styles"), .idx i, .key ("data")]
          let rest := styleLoop tl (i + 1) nameRes.2
          (nameRes.1 ++ dataErrs ++ rest.1, warns ++ rest.2)
      | _ =>
          let rest := styleLoop tl (i + 1) seen
          (styleEntryObjIssue i :: rest.1, rest.2)

/-- `validateStyles`: errors and warnings, in push order. -/
def validateStyles (v : Option JVal) : List ValidationIssue × List ValidationIssue :=
  match v with
  | some (.arr xs) => styleLoop xs 0 []
  | _ => ([⟨"\"styles\" must be an array.", .error, [.key ("styles")]⟩], [])

/-- Unknown top-level-key warnings, in key order. -/
def topUnknownWarnings : JFields → List ValidationIssue
  | .nil => []
  | .cons k _ tl =>
      (if TOP_LEVEL_KEYS.contains k then []
       else [⟨"Unknown key \"" ++ k ++ "\".", .warning, [.key k]⟩]) ++
        topUnknownWarnings tl

/-- The required-or-hex rule shared by `pitch` and `timing`: a dedicated
required error when the key is missing, the hex-shape check otherwise. -/
def requiredHex (v : Option JVal) (key : String) (len : Nat) : List ValidationIssue :=
  match v with
  | none => [⟨"\"" ++ key ++ "\" is required.", .error, [.key key]⟩]
  | some w => validateHex (some w) len [.key key]

/-- `validateNofsData`: a total function over any parsed JSON value; a
non-object root yields the single fatal error, otherwise every rule runs and
all issues are returned as data, in the push order of the source. -/
def validateNofsData (data : JVal) : ValidationResult :=
  match data with
  | .obj fs =>
      let styleRes := validateStyles (lookupF fs ("styles"))
      ⟨requireString fs ("name") ++ requireString fs ("vendor") ++
        requireString fs ("phoneset") ++ validateVersion (lookupF fs ("version")) ++
        validateLanguage (lookupF fs ("language")) ++
        validateSupportLanguages (lookupF fs ("support_languages")) ++
        validatePhoneset (lookupF fs ("language")) (lookupF fs ("phoneset")) ++
        validateModelId (lookupF fs ("sing_model")) ALLOWED_SING_MODEL ("sing_model") ++
        validateModelId (lookupF fs ("base_model")) ALLOWED_BASE_MODEL ("base_model") ++
        validateModelId (lookupF fs ("timing_model")) ALLOWED_TIMING_MODEL ("timing_model") ++
        validateModelId (lookupF fs ("f0_model")) ALLOWED_F0_MODEL ("f0_model") ++
        styleRes.1 ++ requiredHex (lookupF fs ("pitch")) ("pitch") 256 ++
        requiredHex (lookupF fs ("timing")) ("timing") 1024,
        topUnknownWarnings fs ++ styleRes.2⟩
  | _ => ⟨[⟨"Root value must be an object.", .error, []⟩], []⟩

theorem mem_if_singleton {c : Prop} [Decidable c] {a iss : ValidationIssue}
    (h : iss ∈ (if c then [a] else [])) : iss = a := by
  split at h
  · simpa using h
  · simp at h

theorem mem_if_singleton2 {c : Prop} [Decidable c] {a iss : ValidationIssue}
    (h : iss ∈ (if c then [] else [a])) : iss = a := by
  split at h
  · simp at h
  · simpa using h

theorem requireString_severity (fs : JFields) (k : String) :
    ∀ i ∈ requireString fs k, i.severity = .error := by
  intro i hi
  cases h : asStrOpt (lookupF fs k) with
  | some s => simp [requireString, h] at hi
  | none =>
      simp only [requireString, h, List.mem_singleton] at hi
      rw [hi]

theorem validateVersion_severity (v : Option JVal) :
    ∀ i ∈ validateVersion v, i.severity = .error := by
  intro i hi
  cases h : asStrOpt v with
  | none =>
      simp only [validateVersion, h, List.mem_singleton] at hi
      rw [hi]
  | some s =>
      simp only [validateVersion, h] at hi
      rw [mem_if_singleton2 (c := versionMatches s = true) hi]

theorem validateLanguage_severity (v : Option JVal) :
    ∀ i ∈ validateLanguage v, i.severity = .error := by
  intro i hi
  cases h : asStrOpt v with
  | none =>
      simp only [validateLanguage, h, List.mem_singleton] at hi
      rw [hi]
  | some s =>
      simp only [validateLanguage, h] at hi
      rw [mem_if_singleton2 (c := ALLOWED_LANGUAGES.contains s.toLower = true) hi]

theorem validatePhoneset_severity (language phoneset : Option JVal) :
    ∀ i ∈ validatePhoneset language phoneset, i.severity = .error := by
  intro i hi
  cases h1 : asStrOpt language with
  | none => simp [validatePhoneset, h1] at hi
  | some ls =>
      cases h2 : lookupPhoneset PHONESET_BY_LANGUAGE ls.toLower with
      | none => simp [validatePhoneset, h1, h2] at hi
      | some expected =>
          cases h3 : asStrOpt phoneset with
          | none =>
              simp only [validatePhoneset, h1, h2, h3, List.mem_singleton] at hi
              rw [hi]
          | some ps =>
              simp only [validatePhoneset, h1, h2, h3] at hi
              rw [mem_if_singleton2 (c := ps.toLower = expected) hi]

theorem supportLangLoop_severity (xs : JList) :
    ∀ (i : Nat), ∀ iss ∈ supportLangLoop xs i, iss.severity = .error := by
  cases xs with
  | nil => intro i iss h; simp [supportLangLoop] at h
  | cons e tl =>
      intro i iss h
      rw [supportLangLoop, List.mem_append] at h
      rcases h with h | h
      · cases h2 : asStrOpt (some e) with
        | none =>
            rw [h2] at h
            simp only [List.mem_singleton] at h
            rw [h]
        | some s =>
            rw [h2] at h
            rw [mem_if_singleton2 (c := ALLOWED_LANGUAGES.contains s.toLower = true) h]
      · exact supportLangLoop_severity tl (i + 1) iss h
termination_by sizeOf xs

theorem validateSupportLanguages_severity (v : Option JVal) :
    ∀ i ∈ validateSupportLanguages v, i.severity = .error := by
  intro i hi
  cases v with
  | some w =>
      cases w with
      | arr xs =>
          simp only [validateSupportLanguages] at hi
          exact supportLangLoop_severity xs 0 i hi
      | null => simp only [validateSupportLanguages, List.mem_singleton] at hi; rw [hi]
      | jbool b => simp only [validateSupportLanguages, List.mem_singleton] at hi; rw [hi]
      | num q => simp only [validateSupportLanguages, List.mem_singleton] at hi; rw [hi]
      | str s => simp only [validateSupportLanguages, List.mem_singleton] at hi; rw [hi]
      | obj fs => simp only [validateSupportLanguages, List.mem_singleton] at hi; rw [hi]
  | none => simp only [validateSupportLanguages, List.mem_singleton] at hi; rw [hi]

theorem validateModelId_severity (v : Option JVal) (allowed : List String) (k : String) :
    ∀ i ∈ validateModelId v allowed k, i.severity = .error := by
  intro i hi
  cases h : asStrOpt v with
  | none =>
      simp only [validateModelId, h, List.mem_singleton] at hi
      rw [hi]
  | some s =>
      simp only [validateModelId, h] at hi
      rw [mem_if_singleton2 (c := allowed.contains s = true) hi]

theorem validateHex_severity (v : Option JVal) (len : Nat) (p : List PathElem) :
    ∀ i ∈ validateHex v len p, i.severity = .error := by
  intro i hi
  cases h : asStrOpt v with
  | none =>
      simp only [validateHex, h, List.mem_singleton] at hi
      rw [hi]
  | some s =>
      simp only [validateHex, h] at hi
      rw [mem_if_singleton2
        (c := s.data.length = len ∧ s.data.all (fun c => (hexCharVal c).isSome) = true) hi]

theorem requiredHex_severity (v : Option JVal) (k : String) (len : Nat) :
    ∀ i ∈ requiredHex v k len, i.severity = .error := by
  intro i hi
  cases v with
  | none =>
      simp only [requiredHex, List.mem_singleton] at hi
      rw [hi]
  | some w =>
      simp only [requiredHex] at hi
      exact validateHex_severity (some w) len [.key k] i hi

theorem styleUnknownWarnings_severity (fs : JFields) :
    ∀ (i : Nat), ∀ iss ∈ styleUnknownWarnings fs i, iss.severity = .warning := by
  cases fs with
  | nil => intro i iss h; simp [styleUnknownWarnings] at h
  | cons k v tl =>
      intro i iss h
      rw [styleUnknownWarnings, List.mem_append] at h
      rcases h with h | h
      · rw [mem_if_singleton2 (c := STYLE_KEYS.contains k = true) h]
      · exact styleUnknownWarnings_severity tl i iss h
termination_by sizeOf fs

theorem topUnknownWarnings_severity (fs : JFields) :
    ∀ iss ∈ topUnknownWarnings fs, iss.severity = .warning := by
  cases fs with
  | nil => intro iss h; simp [topUnknownWarnings] at h
  | cons k v tl =>
      intro iss h
      rw [topUnknownWarnings, List.mem_append] at h
      rcases h with h | h
      · rw [mem_if_singleton2 (c := TOP_LEVEL_KEYS.contains k = true) h]
      · exact topUnknownWarnings_severity tl iss h
termination_by sizeOf fs

theorem styleLoop_severity (xs : JList) :
    ∀ (i : Nat) (seen : List String),
      (∀ iss ∈ (styleLoop xs i seen).1, iss.severity = .error) ∧
      (∀ iss ∈ (styleLoop xs i seen).2, iss.severity = .warning) := by
  cases xs with
  | nil =>
      intro i seen
      constructor <;> intro iss h <;> simp [styleLoop] at h
  | cons e tl =>
      intro i seen
      cases e with
      | obj fs =>
          constructor
          · intro iss h
            rw [styleLoop] at h
            simp only [List.mem_append] at h
            rcases h with (h | h) | h
            · cases h2 : asStrOpt (lookupF fs ("name")) with
              | some s =>
                  rw [h2] at h
                  simp only [List.mem_append] at h
                  rcases h with h | h
                  · rw [mem_if_singleton (c := s.data.contains ' ' = true) h]
                    rfl
                  · rw [mem_if_singleton (c := seen.contains s = true) h]
                    rfl
              | none =>
                  rw [h2] at h
                  simp only [List.mem_singleton] at h
                  rw [h]
                  rfl
            · exact validateHex_severity _ _ _ iss h
            · cases h2 : asStrOpt (lookupF fs ("name")) with
              | some s =>
                  rw [h2] at h
                  exact (styleLoop_severity tl (i + 1) (seen ++ [s])).1 iss h
              | none =>
                  rw [h2] at h
                  exact (styleLoop_severity tl (i + 1) seen).1 iss h
          · intro iss h
            rw [styleLoop] at h
            simp only [List.mem_append] at h
            rcases h with h | h
            · exact styleUnknownWarnings_severity fs i iss h
            · cases h2 : asStrOpt (lookupF fs ("name")) with
              | some s =>
                  rw [h2] at h
                  exact (styleLoop_severity tl (i + 1) (seen ++ [s])).2 iss h
              | none =>
                  rw [h2] at h
                  exact (styleLoop_severity tl (i + 1) seen).2 iss h
      | null =>
          constructor
          · intro iss h
            simp only [styleLoop] at h
            rcases List.mem_cons.mp h with h | h
            · rw [h]; rfl
            · exact (styleLoop_severity tl (i + 1) seen).1 iss h
          · intro iss h
            simp only [styleLoop] at h
            exact (styleLoop_severity tl (i + 1) seen).2 iss h
      | jbool b =>
          constructor
          · intro iss h
            simp only [styleLoop] at h
            rcases List.mem_cons.mp h with h | h
            · rw [h]; rfl
            · exact (styleLoop_severity tl (i + 1) seen).1 iss h
          · intro iss h
            simp only [styleLoop] at h
            exact (styleLoop_severity tl (i + 1) seen).2 iss h
      | num q =>
          constructor
          · intro iss h
            simp only [styleLoop] at h
            rcases List.mem_cons.mp h with h | h
            · rw [h]; rfl
            · exact (styleLoop_severity tl (i + 1) seen).1 iss h
          · intro iss h
            simp only [styleLoop] at h
            exact (styleLoop_severity tl (i + 1) seen).2 iss h
      | str s =>
          constructor
          · intro iss h
            simp only [styleLoop] at h
            rcases List.mem_cons.mp h with h | h
            · rw [h]; rfl
            · exact (styleLoop_severity tl (i + 1) seen).1 iss h
          · intro iss h
            simp only [styleLoop] at h
            exact (styleLoop_severity tl (i + 1) seen).2 iss h
      | arr ys =>
          constructor
          · intro iss h
            simp only [styleLoop] at h
            rcases List.mem_cons.mp h with h | h
            · rw [h]; rfl
            · exact (styleLoop_severity tl (i + 1) seen).1 iss h
          · intro iss h
            simp only [styleLoop] at h
            exact (styleLoop_severity tl (i + 1) seen).2 iss h
termination_by sizeOf xs

theorem validateStyles_severity (v : Option JVal) :
    (∀ i ∈ (validateStyles v).1, i.severity = .error) ∧
    (∀ i ∈ (validateStyles v).2, i.severity = .warning) := by
  cases v with
  | some w =>
      cases w with
      | arr xs => simpa only [validateStyles] using styleLoop_severity xs 0 []
      | null =>
          constructor <;> intro i hi
          · simp only [validateStyles, List.mem_singleton] at hi; rw [hi]
          · simp [validateStyles] at hi
      | jbool b =>
          constructor <;> intro i hi
          · simp only [validateStyles, List.mem_singleton] at hi; rw [hi]
          · simp [validateStyles] at hi
      | num q =>
          constructor <;> intro i hi
          · simp only [validateStyles, List.mem_singleton] at hi; rw [hi]
          · simp [validateStyles] at hi
      | str s =>
          constructor <;> intro i hi
          · simp only [validateStyles, List.mem_singleton] at hi; rw [hi]
          · simp [validateStyles] at hi
      | obj fs =>
          constructor <;> intro i hi
          · simp only [validateStyles, List.mem_singleton] at hi; rw [hi]
          · simp [validateStyles] at hi
  | none =>
      constructor <;> intro i hi
      · simp only [validateStyles, List.mem_singleton] at hi; rw [hi]
      · simp [validateStyles] at hi

/-- C9: `validateNofsData` is total: every JSON value — objects, non-objects,
documents with missing or wrongly typed fields — yields an
`{errors, warnings}` result (the function is defined on all of `JVal`, so in
this embedding no exception exists), and every rule violation is returned as
data: each entry of `errors` is an error-severity issue and each entry of
`warnings` a warning-severity issue. -/
theorem validateNofsData_total :
    ∀ d : JVal, ∃ r : ValidationResult, validateNofsData d = r ∧
      (∀ i ∈ r.errors, i.severity = .error) ∧
      (∀ i ∈ r.warnings, i.severity = .warning) := by
  intro d
  refine ⟨validateNofsData d, rfl, ?_, ?_⟩
  · intro i hi
    cases d with
    | obj fs =>
        simp only [validateNofsData, List.mem_append] at hi
        rcases hi with ((((((((((((h | h) | h) | h) | h) | h) | h) | h) | h) | h) | h) | h) | h) | h
        · exact requireString_severity fs ("name") i h
        · exact requireString_severity fs ("vendor") i h
        · exact requireString_severity fs ("phoneset") i h
        · exact validateVersion_severity _ i h
        · exact validateLanguage_severity _ i h
        · exact validateSupportLanguages_severity _ i h
        · exact validatePhoneset_severity _ _ i h
        · exact validateModelId_severity _ _ _ i h
        · exact validateModelId_severity _ _ _ i h
        · exact validateModelId_severity _ _ _ i h
        · exact validateModelId_severity _ _ _ i h
        · exact (validateStyles_severity _).1 i h
        · exact requiredHex_severity _ _ _ i h
        · exact requiredHex_severity _ _ _ i h
    | null => simp only [validateNofsData, List.mem_singleton] at hi; rw [hi]
    | jbool b => simp only [validateNofsData, List.mem_singleton] at hi; rw [hi]
    | num q => simp only [validateNofsData, List.mem_singleton] at hi; rw [hi]
    | str s => simp only [validateNofsData, List.mem_singleton] at hi; rw [hi]
    | arr xs => simp only [validateNofsData, List.mem_singleton] at hi; rw [hi]
  · intro i hi
    cases d with
    | obj fs =>
        simp only [validateNofsData, List.mem_append] at hi
        rcases hi with h | h
        · exact topUnknownWarnings_severity fs i h
        · exact (validateStyles_severity _).2 i h
    | null => simp [validateNofsData] at hi
    | jbool b => simp [validateNofsData] at hi
    | num q => simp [validateNofsData] at hi
    | str s => simp [validateNofsData] at hi
    | arr xs => simp [validateNofsData] at hi

/-- Witness for C9 at a non-object root. -/
theorem validateNofsData_total_witness :
    ∃ r : ValidationResult, validateNofsData .null = r ∧
      (∀ i ∈ r.errors, i.severity = .error) ∧
      (∀ i ∈ r.warnings, i.severity = .warning) :=
  validateNofsData_total .null

/-- Entry of a `JList` at an index. -/
def jlistGet : JList → Nat → Option JVal
  | .nil, _ => none
  | .cons x _, 0 => some x
  | .cons _ tl, n + 1 => jlistGet tl n

theorem asStrOpt_eq_some (v : Option JVal) (s : String) :
    asStrOpt v = some s ↔ v = some (.str s) := by
  cases v with
  | none => simp [asStrOpt]
  | some w => cases w <;> simp [asStrOpt]

theorem contains_iff_mem (l : List String) (s : String) :
    l.contains s = true ↔ s ∈ l := by
  induction l with
  | nil => simp
  | cons a tl ih =>
      simp only [List.contains_cons, Bool.or_eq_true, beq_iff_eq, List.mem_cons, ih]

theorem dupMsg_head (s : String) :
    ("Duplicate style name \"" ++ s ++ "\".").data.head? = some 'D' := by
  rw [String.data_append, String.data_append]
  rfl

theorem styleDupIssue_ne_space (s : String) (i j : Nat) :
    styleDupIssue s i ≠ styleSpaceIssue j := by
  intro h
  have hm := congrArg ValidationIssue.message h
  simp only [styleDupIssue, styleSpaceIssue] at hm
  have h2 : ("Duplicate style name \"" ++ s ++ "\".").data.head? =
      ("style.name cannot contain spaces." : String).data.head? := by rw [hm]
  rw [dupMsg_head s] at h2
  simp at h2

theorem styleDupIssue_ne_nameType (s : String) (i j : Nat) :
    styleDupIssue s i ≠ styleNameTypeIssue j := by
  intro h
  have hm := congrArg ValidationIssue.message h
  simp only [styleDupIssue, styleNameTypeIssue] at hm
  have h2 : ("Duplicate style name \"" ++ s ++ "\".").data.head? =
      ("style.name must be a string." : String).data.head? := by rw [hm]
  rw [dupMsg_head s] at h2
  simp at h2

theorem styleDupIssue_ne_entryObj (s : String) (i j : Nat) :
    styleDupIssue s i ≠ styleEntryObjIssue j := by
  intro h
  have hp := congrArg ValidationIssue.path h
  simp [styleDupIssue, styleEntryObjIssue] at hp

theorem validateHex_path (v : Option JVal) (len : Nat) (p : List PathElem) :
    ∀ i ∈ validateHex v len p, i.path = p := by
  intro i hi
  cases h : asStrOpt v with
  | none =>
      simp only [validateHex, h, List.mem_singleton] at hi
      rw [hi]
  | some s =>
      simp only [validateHex, h] at hi
      rw [mem_if_singleton2
        (c := s.data.length = len ∧ s.data.all (fun c => (hexCharVal c).isSome) = true) hi]

/-- Every error produced by the style loop carries a path rooted at the
styles array with an entry index no smaller than the loop counter. -/
theorem styleLoop_error_path (xs : JList) :
    ∀ (b : Nat) (seen : List String) (iss : ValidationIssue),
      iss ∈ (styleLoop xs b seen).1 →
      ∃ j, b ≤ j ∧ ∃ rest, iss.path = .key ("styles") :: .idx j :: rest := by
  cases xs with
  | nil => intro b seen iss h; simp [styleLoop] at h
  | cons e tl =>
      intro b seen iss h
      cases e with
      | obj fs =>
          rw [styleLoop] at h
          simp only [List.mem_append] at h
          rcases h with (h | h) | h
          · cases h2 : asStrOpt (lookupF fs ("name")) with
            | some s =>
                rw [h2] at h
                simp only [List.mem_append] at h
                rcases h with h | h
                · rw [mem_if_singleton (c := s.data.contains ' ' = true) h]
                  exact ⟨b, le_refl b, [.key ("name")], rfl⟩
                · rw [mem_if_singleton (c := seen.contains s = true) h]
                  exact ⟨b, le_refl b, [.key ("name")], rfl⟩
            | none =>
                rw [h2] at h
                simp only [List.mem_singleton] at h
                rw [h]
                exact ⟨b, le_refl b, [.key ("name")], rfl⟩
          · have := validateHex_path _ _ _ iss h
            exact ⟨b, le_refl b, [.key ("data")], this⟩
          · cases h2 : asStrOpt (lookupF fs ("name")) with
            | some s =>
                rw [h2] at h
                obtain ⟨j, hj, rest, hpath⟩ := styleLoop_error_path tl (b + 1) (seen ++ [s]) iss h
                exact ⟨j, by omega, rest, hpath⟩
            | none =>
                rw [h2] at h
                obtain ⟨j, hj, rest, hpath⟩ := styleLoop_error_path tl (b + 1) seen iss h
                exact ⟨j, by omega, rest, hpath⟩
      | null =>
          simp only [styleLoop] at h
          rcases List.mem_cons.mp h with h | h
          · rw [h]; exact ⟨b, le_refl b, [], rfl⟩
          · obtain ⟨j, hj, rest, hpath⟩ := styleLoop_error_path tl (b + 1) seen iss h
            exact ⟨j, by omega, rest, hpath⟩
      | jbool bb =>
          simp only [styleLoop] at h
          rcases List.mem_cons.mp h with h | h
          · rw [h]; exact ⟨b, le_refl b, [], rfl⟩
          · obtain ⟨j, hj, rest, hpath⟩ := styleLoop_error_path tl (b + 1) seen iss h
            exact ⟨j, by omega, rest, hpath⟩
      | num q =>
          simp only [styleLoop] at h
          rcases List.mem_cons.mp h with h | h
          · rw [h]; exact ⟨b, le_refl b, [], rfl⟩
          · obtain ⟨j, hj, rest, hpath⟩ := styleLoop_error_path tl (b + 1) seen iss h
            exact ⟨j, by omega, rest, hpath⟩
      | str s =>
          simp only [styleLoop] at h
          rcases List.mem_cons.mp h with h | h
          · rw [h]; exact ⟨b, le_refl b, [], rfl⟩
          · obtain ⟨j, hj, rest, hpath⟩ := styleLoop_error_path tl (b + 1) seen iss h
            exact ⟨j, by omega, rest, hpath⟩
      | arr ys =>
          simp only [styleLoop] at h
          rcases List.mem_cons.mp h with h | h
          · rw [h]; exact ⟨b, le_refl b, [], rfl⟩
          · obtain ⟨j, hj, rest, hpath⟩ := styleLoop_error_path tl (b + 1) seen iss h
            exact ⟨j, by omega, rest, hpath⟩
termination_by sizeOf xs

/-- A duplicate-name issue for entry `k` cannot come from the loop once the
counter has passed `k`. -/
theorem styleLoop_dup_not_later (xs : JList) (b : Nat) (seen : List String)
    (s : String) (k : Nat) (hk : k < b) :
    styleDupIssue s k ∉ (styleLoop xs b seen).1 := by
  intro h
  obtain ⟨j, hj, rest, hpath⟩ := styleLoop_error_path xs b seen _ h
  simp only [styleDupIssue] at hpath
  have : k = j := by
    have := congrArg (fun l => l.get? 1) hpath
    simpa using this
  omega

/-- A style entry whose string name contains a space always yields the space
error at its index. -/
theorem styleLoop_space_mem (xs : JList) :
    ∀ (b : Nat) (seen : List String) (i : Nat) (fs : JFields) (s : String),
      jlistGet xs i = some (.obj fs) →
      lookupF fs ("name") = some (.str s) →
      s.data.contains ' ' = true →
      styleSpaceIssue (b + i) ∈ (styleLoop xs b seen).1 := by
  cases xs with
  | nil => intro b seen i fs s hget _ _; simp [jlistGet] at hget
  | cons e tl =>
      intro b seen i fs s hget hname hsp
      cases i with
      | zero =>
          rw [jlistGet, Option.some.injEq] at hget
          subst hget
          have hstr : asStrOpt (lookupF fs ("name")) = some s := by
            rw [hname]
            rfl
          rw [styleLoop]
          simp only [hstr, Nat.add_zero]
          simp only [List.mem_append]
          left
          left
          rw [if_pos hsp]
          simp
      | succ i2 =>
          rw [jlistGet] at hget
          have heq : b + 1 + i2 = b + (i2 + 1) := by omega
          cases e with
          | obj g =>
              rw [styleLoop]
              cases h2 : asStrOpt (lookupF g ("name")) with
              | some t =>
                  simp only [h2]
                  have ih := styleLoop_space_mem tl (b + 1) (seen ++ [t]) i2 fs s hget hname hsp
                  rw [heq] at ih
                  simp [List.mem_append, ih]
              | none =>
                  simp only [h2]
                  have ih := styleLoop_space_mem tl (b + 1) seen i2 fs s hget hname hsp
                  rw [heq] at ih
                  simp [List.mem_append, ih]
          | null =>
              simp only [styleLoop]
              have ih := styleLoop_space_mem tl (b + 1) seen i2 fs s hget hname hsp
              rw [heq] at ih
              exact List.mem_cons.mpr (Or.inr ih)
          | jbool bb =>
              simp only [styleLoop]
              have ih := styleLoop_space_mem tl (b + 1) seen i2 fs s hget hname hsp
              rw [heq] at ih
              exact List.mem_cons.mpr (Or.inr ih)
          | num q =>
              simp only [styleLoop]
              have ih := styleLoop_space_mem tl (b + 1) seen i2 fs s hget hname hsp
              rw [heq] at ih
              exact List.mem_cons.mpr (Or.inr ih)
          | str t =>
              simp only [styleLoop]
              have ih := styleLoop_space_mem tl (b + 1) seen i2 fs s hget hname hsp
              rw [heq] at ih
              exact List.mem_cons.mpr (Or.inr ih)
          | arr ys =>
              simp only [styleLoop]
              have ih := styleLoop_space_mem tl (b + 1) seen i2 fs s hget hname hsp
              rw [heq] at ih
              exact List.mem_cons.mpr (Or.inr ih)
termination_by sizeOf xs

/-- The duplicate error for the entry at index `i` (an object whose name is
the string `s`) appears exactly when `s` is already in the seen set or an
earlier object entry has string name `s`. -/
theorem styleLoop_dup_iff (xs : JList) :
    ∀ (b : Nat) (seen : List String) (i : Nat) (fs : JFields) (s : String),
      jlistGet xs i = some (.obj fs) →
      lookupF fs ("name") = some (.str s) →
      (styleDupIssue s (b + i) ∈ (styleLoop xs b seen).1 ↔
        (s ∈ seen ∨ ∃ j, j < i ∧ ∃ gs, jlistGet xs j = some (.obj gs) ∧
          lookupF gs ("name") = some (.str s))) := by
  cases xs with
  | nil => intro b seen i fs s hget _; simp [jlistGet] at hget
  | cons e tl =>
      intro b seen i fs s hget hname
      cases i with
      | zero =>
          rw [jlistGet, Option.some.injEq] at hget
          subst hget
          have hstr : asStrOpt (lookupF fs ("name")) = some s := by
            rw [hname]
            rfl
          rw [styleLoop]
          simp only [hstr, Nat.add_zero]
          constructor
          · intro h
            simp only [List.mem_append] at h
            rcases h with ((h | h) | h) | h
            · exact absurd (mem_if_singleton (c := s.data.contains ' ' = true) h)
                (styleDupIssue_ne_space s b b)
            · split at h
            

              · left
                rw [← contains_iff_mem]
                assumption
              · simp at h
            · have hp := validateHex_path _ _ _ _ h
              simp [styleDupIssue] at hp
            · exact absurd h (styleLoop_dup_not_later tl (b + 1) _ s b (by omega))
          · intro h
            rcases h with h | ⟨j, hj, _⟩
            · have hc : seen.contains s = true := (contains_iff_mem seen s).mpr h
              simp only [List.mem_append]
              left
              left
              right
              rw [if_pos hc]
              simp
            · omega
      | succ i2 =>
          rw [jlistGet] at hget
          have heq : b + 1 + i2 = b + (i2 + 1) := by omega
          cases e with
          | obj g =>
              rw [styleLoop]
              cases h2 : asStrOpt (lookupF g ("name")) with
              | some t =>
                  simp only [h2]
                  have ih := styleLoop_dup_iff tl (b + 1) (seen ++ [t]) i2 fs s hget hname
                  rw [heq] at ih
                  constructor
                  · intro h
                    simp only [List.mem_append] at h
                    rcases h with ((h | h) | h) | h
                    · have hh := mem_if_singleton (c := t.data.contains ' ' = true) h
                      have hp := congrArg ValidationIssue.path hh
                      simp only [styleDupIssue, styleSpaceIssue, List.cons.injEq,
                        PathElem.idx.injEq] at hp
                      omega
                    · have hh := mem_if_singleton (c := seen.contains t = true) h
                      have hp := congrArg ValidationIssue.path hh
                      simp only [styleDupIssue, List.cons.injEq, PathElem.idx.injEq] at hp
                      omega
                    · have hp := validateHex_path _ _ _ _ h
                      simp [styleDupIssue] at hp
                    · rcases ih.mp h with hc | ⟨j, hj, gs, hg, hn⟩
                      · rcases List.mem_append.mp hc with hc | hc
                        · exact Or.inl hc
                        · right
                          refine ⟨0, by omega, g, by rw [jlistGet], ?_⟩
                          have hst : s = t := by simpa using hc
                          rw [hst]
                          exact (asStrOpt_eq_some _ _).mp h2
                      · exact Or.inr ⟨j + 1, by omega, gs, by rw [jlistGet]; exact hg, hn⟩
                  · intro h
                    have hrest : styleDupIssue s (b + (i2 + 1)) ∈
                        (styleLoop tl (b + 1) (seen ++ [t])).1 := by
                      apply ih.mpr
                      rcases h with hc | ⟨j, hj, gs, hg, hn⟩
                      · exact Or.inl (List.mem_append.mpr (Or.inl hc))
                      · cases j with
                        | zero =>
                            rw [jlistGet, Option.some.injEq] at hg
                            left
                            apply List.mem_append.mpr
                            right
                            have hg2 : g = gs := by
                              injection hg
                            subst hg2
                            have hlg := (asStrOpt_eq_some _ _).mp h2
                            rw [hn, Option.some.injEq] at hlg
                            have hst : s = t := by
                              injection hlg
                            simp [hst]
                        | succ j2 =>
                            rw [jlistGet] at hg
                            exact Or.inr ⟨j2, by omega, gs, hg, hn⟩
                    simp [List.mem_append, hrest]
              | none =>
                  simp only [h2]
                  have ih := styleLoop_dup_iff tl (b + 1) seen i2 fs s hget hname
                  rw [heq] at ih
                  constructor
                  · intro h
                    simp only [List.mem_append] at h
                    rcases h with (h | h) | h
                    · simp only [List.mem_singleton] at h
                      exact absurd h (styleDupIssue_ne_nameType s _ b)
                    · have hp := validateHex_path _ _ _ _ h
                      simp [styleDupIssue] at hp
                    · rcases ih.mp h with hc | ⟨j, hj, gs, hg, hn⟩
                      · exact Or.inl hc
                      · exact Or.inr ⟨j + 1, by omega, gs, by rw [jlistGet]; exact hg, hn⟩
                  · intro h
                    have hrest : styleDupIssue s (b + (i2 + 1)) ∈
                        (styleLoop tl (b + 1) seen).1 := by
                      apply ih.mpr
                      rcases h with hc | ⟨j, hj, gs, hg, hn⟩
                      · exact Or.inl hc
                      · cases j with
                        | zero =>
                            rw [jlistGet, Option.some.injEq] at hg
                            have hg2 : g = gs := by
                              injection hg
                            subst hg2
                            rw [hn] at h2
                            simp [asStrOpt] at h2
                        | succ j2 =>
                            rw [jlistGet] at hg
                            exact Or.inr ⟨j2, by omega, gs, hg, hn⟩
                    simp [List.mem_append, hrest]
          | null =>
              simp only [styleLoop]
              have ih := styleLoop_dup_iff tl (b + 1) seen i2 fs s hget hname
              rw [heq] at ih
              constructor
              · intro h
                rcases List.mem_cons.mp h with h | h
                · exact absurd h (styleDupIssue_ne_entryObj s _ b)
                · rcases ih.mp h with hc | ⟨j, hj, gs, hg, hn⟩
                  · exact Or.inl hc
                  · exact Or.inr ⟨j + 1, by omega, gs, by rw [jlistGet]; exact hg, hn⟩
              · intro h
                apply List.mem_cons.mpr
                right
                apply ih.mpr
                rcases h with hc | ⟨j, hj, gs, hg, hn⟩
                · exact Or.inl hc
                · cases j with
                  | zero => rw [jlistGet] at hg; simp at hg
                  | succ j2 =>
                      rw [jlistGet] at hg
                      exact Or.inr ⟨j2, by omega, gs, hg, hn⟩
          | jbool bb =>
              simp only [styleLoop]
              have ih := styleLoop_dup_iff tl (b + 1) seen i2 fs s hget hname
              rw [heq] at ih
              constructor
              · intro h
                rcases List.mem_cons.mp h with h | h
                · exact absurd h (styleDupIssue_ne_entryObj s _ b)
                · rcases ih.mp h with hc | ⟨j, hj, gs, hg, hn⟩
                  · exact Or.inl hc
                  · exact Or.inr ⟨j + 1, by omega, gs, by rw [jlistGet]; exact hg, hn⟩
              · intro h
                apply List.mem_cons.mpr
                right
                apply ih.mpr
                rcases h with hc | ⟨j, hj, gs, hg, hn⟩
                · exact Or.inl hc
                · cases j with
                  | zero => rw [jlistGet] at hg; simp at hg
                  | succ j2 =>
                      rw [jlistGet] at hg
                      exact Or.inr ⟨j2, by omega, gs, hg, hn⟩
          | num q =>
              simp only [styleLoop]
              have ih := styleLoop_dup_iff tl (b + 1) seen i2 fs s hget hname
              rw [heq] at ih
              constructor
              · intro h
                rcases List.mem_cons.mp h with h | h
                · exact absurd h (styleDupIssue_ne_entryObj s _ b)
                · rcases ih.mp h with hc | ⟨j, hj, gs, hg, hn⟩
                  · exact Or.inl hc
                  · exact Or.inr ⟨j + 1, by omega, gs, by rw [jlistGet]; exact hg, hn⟩
              · intro h
                apply List.mem_cons.mpr
                right
                apply ih.mpr
                rcases h with hc | ⟨j, hj, gs, hg, hn⟩
                · exact Or.inl hc
                · cases j with
                  | zero => rw [jlistGet] at hg; simp at hg
                  | succ j2 =>
                      rw [jlistGet] at hg
                      exact Or.inr ⟨j2, by omega, gs, hg, hn⟩
          | str t =>
              simp only [styleLoop]
              have ih := styleLoop_dup_iff tl (b + 1) seen i2 fs s hget hname
              rw [heq] at ih
              constructor
              · intro h
                rcases List.mem_cons.mp h with h | h
                · exact absurd h (styleDupIssue_ne_entryObj s _ b)
                · rcases ih.mp h with hc | ⟨j, hj, gs, hg, hn⟩
                  · exact Or.inl hc
                  · exact Or.inr ⟨j + 1, by omega, gs, by rw [jlistGet]; exact hg, hn⟩
              · intro h
                apply List.mem_cons.mpr
                right
                apply ih.mpr
                rcases h with hc | ⟨j, hj, gs, hg, hn⟩
                · exact Or.inl hc
                · cases j with
                  | zero => rw [jlistGet] at hg; simp at hg
                  | succ j2 =>
                      rw [jlistGet] at hg
                      exact Or.inr ⟨j2, by omega, gs, hg, hn⟩
          | arr ys =>
              simp only [styleLoop]
              have ih := styleLoop_dup_iff tl (b + 1) seen i2 fs s hget hname
              rw [heq] at ih
              constructor
              · intro h
                rcases List.mem_cons.mp h with h | h
                · exact absurd h (styleDupIssue_ne_entryObj s _ b)
                · rcases ih.mp h with hc | ⟨j, hj, gs, hg, hn⟩
                  · exact Or.inl hc
                  · exact Or.inr ⟨j + 1, by omega, gs, by rw [jlistGet]; exact hg, hn⟩
              · intro h
                apply List.mem_cons.mpr
                right
                apply ih.mpr
                rcases h with hc | ⟨j, hj, gs, hg, hn⟩
                · exact Or.inl hc
                · cases j with
                  | zero => rw [jlistGet] at hg; simp at hg
                  | succ j2 =>
                      rw [jlistGet] at hg
                      exact Or.inr ⟨j2, by omega, gs, hg, hn⟩
termination_by sizeOf xs

/-- A style entry whose name `"a\tb"` contains whitespace (a tab) but no
space character, with valid 256-hex data. -/
def wsStyleEntry : JFields :=
  .cons ("name") (.str ("a\tb"))
    (.cons ("data") (.str (String.mk (List.replicate 256 'A'))) .nil)

/-- C8 counterexample: the validator reports no error at all for a style
name containing a tab — it checks only for the literal space character, not
for arbitrary whitespace. -/
theorem validateStyles_whitespace_counterexample :
    (validateStyles (some (.arr (.cons (.obj wsStyleEntry) .nil)))).1 = [] ∧
    ("a\tb" : String).data.any (fun c => c.isWhitespace) = true ∧
    ("a\tb" : String).data.contains ' ' = false := by
  refine ⟨by decide, by decide, by decide⟩

/-- C8 (amended): for every styles array, a style entry whose string name
contains a space character (U+0020 only — other whitespace is not checked)
gets the space error at its index, and the duplicate-name error appears at an
entry exactly when an earlier object entry carries the same string name:
always on second and later occurrences, never on the first. -/
theorem validateStyles_name_checks (xs : JList) (i : Nat) (fs : JFields) (s : String)
    (hget : jlistGet xs i = some (.obj fs))
    (hname : lookupF fs ("name") = some (.str s)) :
    (s.data.contains ' ' = true →
      styleSpaceIssue i ∈ (validateStyles (some (.arr xs))).1) ∧
    ((∃ j, j < i ∧ ∃ gs, jlistGet xs j = some (.obj gs) ∧
        lookupF gs ("name") = some (.str s)) →
      styleDupIssue s i ∈ (validateStyles (some (.arr xs))).1) ∧
    (¬(∃ j, j < i ∧ ∃ gs, jlistGet xs j = some (.obj gs) ∧
        lookupF gs ("name") = some (.str s)) →
      styleDupIssue s i ∉ (validateStyles (some (.arr xs))).1) := by
  have hiff := styleLoop_dup_iff xs 0 [] i fs s hget hname
  simp only [Nat.zero_add] at hiff
  refine ⟨?_, ?_, ?_⟩
  · intro hsp
    have := styleLoop_space_mem xs 0 [] i fs s hget hname hsp
    simpa [validateStyles] using this
  · intro hex
    simp only [validateStyles]
    exact hiff.mpr (Or.inr hex)
  · intro hnex hmem
    rcases hiff.mp (by simpa [validateStyles] using hmem) with hc | hex
    · simp at hc
    · exact hnex hex

/-- Two style entries both named `A`, with valid data. -/
def dupStylesDemo : JList :=
  .cons (.obj (.cons ("name") (.str ("A"))
      (.cons ("data") (.str (String.mk (List.replicate 256 'B'))) .nil)))
    (.cons (.obj (.cons ("name") (.str ("A"))
      (.cons ("data") (.str (String.mk (List.replicate 256 'C'))) .nil))) .nil)

/-- The second entry of `dupStylesDemo`. -/
def dupStylesDemoEntry : JFields :=
  .cons ("name") (.str ("A"))
    (.cons ("data") (.str (String.mk (List.replicate 256 'C'))) .nil)

/-- Witness for C8 (amended) at the second of two entries named `A`. -/
theorem validateStyles_name_checks_witness :
    (("A" : String).data.contains ' ' = true →
      styleSpaceIssue 1 ∈ (validateStyles (some (.arr dupStylesDemo))).1) ∧
    ((∃ j, j < 1 ∧ ∃ gs, jlistGet dupStylesDemo j = some (.obj gs) ∧
        lookupF gs ("name") = some (.str ("A"))) →
      styleDupIssue ("A") 1 ∈ (validateStyles (some (.arr dupStylesDemo))).1) ∧
    (¬(∃ j, j < 1 ∧ ∃ gs, jlistGet dupStylesDemo j = some (.obj gs) ∧
        lookupF gs ("name") = some (.str ("A"))) →
      styleDupIssue ("A") 1 ∉ (validateStyles (some (.arr dupStylesDemo))).1) :=
  validateStyles_name_checks dupStylesDemo 1 dupStylesDemoEntry ("A") (by decide) (by decide)
